import Mathlib

/-!
Shallow embedding of the `spider` module (spider.py), a breadth-first,
level-synchronized web crawler.

URLs are modelled by an arbitrary type with decidable equality.  The HTTP
transport (urllib2) and the HTML link extractor (lxml) are external
collaborators: a fetch world is a function from a URL to either a response
descriptor or an error kind, and a response carries the already-extracted
link occurrences (`doc = none` models `lxml.html.parse(...).getroot()`
yielding no root, i.e. a parse failure).  Python dictionaries become
association lists, the `_urls` deque becomes a list used FIFO, and the
graph lock becomes an explicit re-entrant depth counter.  Side effects on
callbacks and scheduling are reified as an event trace.
-/

/-- Kinds of error a fetch can raise (spec section 7 taxonomy for fetch-time
errors: DNS/connect/refused, timeout, malformed response). The source stores
the raised exception class; we model it by this tag. -/
inductive ErrKind where
  | connectionError
  | timeoutError
  | protocolError
  deriving DecidableEq, Repr

/-- One hyperlink occurrence, as yielded by `html.iterlinks()`:
(element, attribute, link, pos).  The element handle is opaque. -/
structure LinkOcc (α : Type) where
  element : Nat
  attr : String
  link : α
  pos : Nat
  deriving DecidableEq, Repr

/-- A successful urllib2 response: final URL after redirects (`geturl()`),
the content-type and content-encoding headers, and the parsed document.
`doc = none` models `lxml.html.parse(response).getroot()` returning no
root (parse failure); `doc = some occs` gives the link occurrences of the
parsed document with links already made absolute. -/
structure Response (α : Type) where
  finalUrl : α
  contentType : String
  contentEnc : String
  doc : Option (List (LinkOcc α))
  deriving DecidableEq, Repr

/-- Outcome of one call of `urllib2.urlopen`: a response, or a raised error. -/
inductive FetchResult (α : Type) where
  | ok (r : Response α)
  | err (e : ErrKind)
  deriving DecidableEq, Repr

/-- Character-level split on a one-character separator, the semantics of
Python `str.split(sep)`: the list of maximal separator-free groups, with
empty groups kept, never empty as a whole. -/
def splitChars (sep : Char) : List Char → List (List Char)
  | [] => [[]]
  | c :: rest =>
    match splitChars sep rest with
    | [] => [[]]
    | g :: gs => if c = sep then [] :: g :: gs else (c :: g) :: gs

/-- `mime`: the mime type of a response, the content-type header up to the
first semicolon (`response.info().getheader('content-type').split(';')[0]`). -/
def mime {α : Type} (r : Response α) : String :=
  ((splitChars ';' r.contentType.data).headD []).asString

/-- `ishtml`: the response is html when its mime type is in `['text/html']`. -/
def ishtml {α : Type} (r : Response α) : Bool :=
  decide (mime r ∈ ["text/html"])

/-- One entry of the `visited` dictionary, as written by `Spider._get`:
keys `redirected`, `redirectUrl`, `content-type`, `content-enc`, `dead`,
`exc`, `times` of the Python record. -/
structure VisitRecord (α : Type) where
  redirected : Bool
  redirectUrl : α
  contentType : String
  contentEnc : String
  dead : Bool
  exc : Option ErrKind
  times : Nat
  deriving DecidableEq, Repr

/-- Lookup in an association list (a Python dictionary). -/
def lookupA {α β : Type} [DecidableEq α] : List (α × β) → α → Option β
  | [], _ => none
  | (k, v) :: rest, k' => if k' = k then some v else lookupA rest k'

/-- Key membership in an association list (`k in d` on a dictionary). -/
def memA {α β : Type} [DecidableEq α] (m : List (α × β)) (k : α) : Bool :=
  (lookupA m k).isSome

/-- Store under a key: overwrite in place if present, append otherwise
(`d[k] = v` on a dictionary, preserving insertion order). -/
def setA {α β : Type} [DecidableEq α] : List (α × β) → α → β → List (α × β)
  | [], k, v => [(k, v)]
  | (k', v') :: rest, k, v =>
      if k = k' then (k, v) :: rest else (k', v') :: setA rest k v

/-- The crawl result shared by all workers: `graph` (adjacency lists),
`visited` (per-URL visit records), `urls` (the `_urls` frontier deque,
FIFO), plus `glock`, the re-entrant holding depth of the Spider's graph
lock, and `root`, the seed. -/
structure SpiderResults (α : Type) where
  graph : List (α × List α)
  visited : List (α × VisitRecord α)
  urls : List α
  glock : Nat
  root : α
  deriving DecidableEq, Repr

/-- Observable events of a crawl: scheduling (`submit`, `procDone`,
`levelStart`), fetch starts, the four user callbacks, and each append to an
adjacency list tagged with whether the graph lock was held. -/
inductive Ev (α : Type) where
  | levelStart (d : Nat)
  | submit (d : Nat) (u : α)
  | fetchStart (u : α)
  | procDone (d : Nat) (u : α)
  | onResponse (u : α)
  | onHtml (u : α)
  | onLink (parent : α) (link : α) (element : Nat)
  | appendE (parent : α) (link : α) (lockHeld : Bool)
  deriving DecidableEq, Repr

namespace Spider

variable {α : Type} [DecidableEq α]

/-- The attempt counter stored by one more fetch of `url`: the previous
`times` plus one when `url` is already a `visited` key, else 1. -/
def timesNext (s : SpiderResults α) (url : α) : Nat :=
  match lookupA s.visited url with
  | some rec => rec.times + 1
  | none => 1

/-- `Spider._get`: one fetch of `url`.  Serialization under the connect
lock is the sequential execution of this function.  The try block either
yields a response (setting final URL, headers, and the redirect flag) or
raises (leaving the initialized defaults and recording the exception
kind); the finally block unconditionally bumps the attempt counter,
writes the visit record, and, under the graph lock, gives a live URL an
empty adjacency list if it has none.  Returns the updated results, the
response (`none` when the fetch raised), and the trace. -/
def get (fetch : α → FetchResult α) (url : α) (s : SpiderResults α) :
    SpiderResults α × Option (Response α) × List (Ev α) :=
  let attempt := fetch url
  let response : Option (Response α) :=
    match attempt with | .ok r => some r | .err _ => none
  let isDead : Bool := match attempt with | .ok _ => false | .err _ => true
  let redirectUrl : α := match attempt with | .ok r => r.finalUrl | .err _ => url
  let contentType : String := match attempt with | .ok r => r.contentType | .err _ => ""
  let contentEnc : String := match attempt with | .ok r => r.contentEnc | .err _ => ""
  let exc : Option ErrKind := match attempt with | .ok _ => none | .err e => some e
  let redirected : Bool := match attempt with
    | .ok r => ! decide (url = r.finalUrl)
    | .err _ => false
  let times : Nat := timesNext s url
  let visited1 := setA s.visited url
    { redirected := redirected, redirectUrl := redirectUrl,
      contentType := contentType, contentEnc := contentEnc,
      dead := isDead, exc := exc, times := times }
  let graph1 := if !isDead && !(memA s.graph url) then s.graph ++ [(url, [])] else s.graph
  ({ s with visited := visited1, graph := graph1 }, response, [Ev.fetchStart url])

/-- The discovery loop of `Spider._processPage` over `html.iterlinks()`.
Each iteration acquires the graph lock, evaluates the short-circuit guard
(`attribute == 'href'`, link not pending in `_urls`, link not a `visited`
key, link not already in `graph[url]` — the last conjunct indexes
`graph[url]`, `none` modelling the KeyError when the key is absent), on
success appends the link to `_urls` and to `graph[url]` and fires the link
callback, and releases the lock. -/
def processLinks (url : α) (occs : List (LinkOcc α)) (s : SpiderResults α) :
    Option (SpiderResults α × List (Ev α)) :=
  match occs with
  | [] => some (s, [])
  | occ :: rest =>
    let s1 : SpiderResults α := { s with glock := s.glock + 1 }
    if decide (occ.attr = "href") && !(decide (occ.link ∈ s1.urls))
        && !(memA s1.visited occ.link) then
      match lookupA s1.graph url with
      | none => none
      | some adj =>
        if decide (occ.link ∈ adj) then
          processLinks url rest { s1 with glock := s1.glock - 1 }
        else
          let s2 : SpiderResults α :=
            { s1 with urls := s1.urls ++ [occ.link],
                      graph := setA s1.graph url (adj ++ [occ.link]) }
          let evs : List (Ev α) :=
            [Ev.appendE url occ.link (decide (0 < s1.glock)),
             Ev.onLink url occ.link occ.element]
          match processLinks url rest { s2 with glock := s2.glock - 1 } with
          | none => none
          | some (s4, evs2) => some (s4, evs ++ evs2)
    else
      processLinks url rest { s1 with glock := s1.glock - 1 }

/-- `Spider._processPage`: fetch `url`, return at once when the fetch
raised, fire the response callback, and if the response is html and has a
parse root, fire the html callback and run the discovery loop.  `none`
propagates the KeyError of the discovery loop. -/
def processPage (fetch : α → FetchResult α) (url : α) (s : SpiderResults α) :
    Option (SpiderResults α × List (Ev α)) :=
  match Spider.get fetch url s with
  | (s1, none, evs) => some (s1, evs)
  | (s1, some r, evs) =>
    let evs1 := evs ++ [Ev.onResponse url]
    if ishtml r then
      match r.doc with
      | none => some (s1, evs1)
      | some occs =>
        let evs2 := evs1 ++ [Ev.onHtml url]
        match processLinks url occs s1 with
        | none => none
        | some (s2, evs3) => some (s2, evs2 ++ evs3)
    else some (s1, evs1)

/-- Modelled from the spec: the ThreadPool collaborator (`add_task` then
`wait_completion`) is not under src; per the pool contract it executes all
queued `_processPage` tasks to completion, here sequentially in FIFO
submission order.  `d` tags each completed task with its level. -/
def runTasks (fetch : α → FetchResult α) (d : Nat) :
    List α → SpiderResults α → Option (SpiderResults α × List (Ev α))
  | [], s => some (s, [])
  | u :: rest, s =>
    match Spider.processPage fetch u s with
    | none => none
    | some (s1, evs) =>
      match runTasks fetch d rest s1 with
      | none => none
      | some (s2, evs2) => some (s2, (evs ++ [Ev.procDone d u]) ++ evs2)

/-- Submission events for the tasks queued at level `d`. -/
def submitEvs (d : Nat) (todo : List α) : List (Ev α) :=
  todo.map (fun u => Ev.submit d u)

/-- The `while depth < maxDepth` loop of `Spider.spider`, recursing on the
number `fuel = maxDepth - depth` of iterations left, with the final
`wait_completion` as the base case: wait for the pending level-`depth`
tasks, and while below the depth limit fire the level callback, drain the
whole `_urls` frontier into the next level's submissions, and recurse. -/
def spiderLoop (fetch : α → FetchResult α) :
    Nat → Nat → List α → SpiderResults α → Option (SpiderResults α × List (Ev α))
  | 0, depth, pending, s => runTasks fetch depth pending s
  | fuel + 1, depth, pending, s =>
    match runTasks fetch depth pending s with
    | none => none
    | some (s1, evA) =>
      let drained := s1.urls
      match spiderLoop fetch fuel (depth + 1) drained { s1 with urls := [] } with
      | none => none
      | some (s3, evB) =>
        some (s3, evA ++ (Ev.levelStart (depth + 1) :: submitEvs (depth + 1) drained) ++ evB)

/-- The empty `SpiderResults` created at the start of `Spider.spider`,
with `results.root` set to the seed. -/
def initResults (rootUrl : α) : SpiderResults α :=
  { graph := [], visited := [], urls := [], glock := 0, root := rootUrl }

/-- `Spider.spider`: fire the level callback for level 1, submit the seed,
and run the level loop from depth 1 (the loop body runs `maxDepth - 1`
times before the final `wait_completion`). -/
def spider (fetch : α → FetchResult α) (rootUrl : α) (maxDepth : Nat) :
    Option (SpiderResults α × List (Ev α)) :=
  match spiderLoop fetch (maxDepth - 1) 1 [rootUrl] (initResults rootUrl) with
  | none => none
  | some (s, evs) => some (s, Ev.levelStart 1 :: Ev.submit 1 rootUrl :: evs)

end Spider

/-- Number of fetches of `u` started in a trace. -/
def countFetch {α : Type} [DecidableEq α] (u : α) (evs : List (Ev α)) : Nat :=
  (evs.filter fun e => match e with
    | Ev.fetchStart v => decide (v = u)
    | _ => false).length

/-- The URLs submitted to the worker pool at level `d`, in submission order. -/
def submittedAt {α : Type} (d : Nat) (evs : List (Ev α)) : List α :=
  evs.filterMap fun e => match e with
    | Ev.submit d2 u => if d2 = d then some u else none
    | _ => none

/-- The level numbers announced by the level callback, in order. -/
def levelStarts {α : Type} (evs : List (Ev α)) : List Nat :=
  evs.filterMap fun e => match e with
    | Ev.levelStart d => some d
    | _ => none

/-- Whether an event is a link-discovered callback for the pair `(p, t)`. -/
def isLinkEv {α : Type} [DecidableEq α] (p t : α) : Ev α → Bool
  | Ev.onLink p2 t2 _ => decide (p2 = p) && decide (t2 = t)
  | _ => false

/-- Number of link-discovered callback invocations for the pair `(p, t)`. -/
def countLinkEv {α : Type} [DecidableEq α] (p t : α) (evs : List (Ev α)) : Nat :=
  (evs.filter (isLinkEv p t)).length

/-- Reference level iteration: starting from a state and a pending task
list for level `depth`, run `k` levels (each: execute the pending tasks,
then drain the frontier into the next pending list).  `levelsFrom fetch 1 d
(init, [root])` hence yields the state after level `d` completes together
with the frontier it accumulated, i.e. the task list for level `d + 1`. -/
def levelsFrom {α : Type} [DecidableEq α] (fetch : α → FetchResult α) :
    Nat → Nat → SpiderResults α × List α → Option (SpiderResults α × List α)
  | _, 0, sp => some sp
  | depth, k + 1, sp =>
    match Spider.runTasks fetch depth sp.2 sp.1 with
    | none => none
    | some (s1, _) => levelsFrom fetch (depth + 1) k ({ s1 with urls := [] }, s1.urls)

/-- State and accumulated frontier after the first `d` levels of a crawl. -/
def levels {α : Type} [DecidableEq α] (fetch : α → FetchResult α) (rootUrl : α) (d : Nat) :
    Option (SpiderResults α × List α) :=
  levelsFrom fetch 1 d (Spider.initResults rootUrl, [rootUrl])

/-- URL universe for the concrete test sites. -/
inductive U where
  | root | p1 | p2 | x | a | b
  deriving DecidableEq, Repr

/-- Test site for shared-discovery: the root links to two pages `p1`, `p2`
that both link to the same fresh URL `x`. -/
def fetchShared : U → FetchResult U
  | U.root => .ok { finalUrl := U.root, contentType := "text/html", contentEnc := "",
                    doc := some [⟨0, "href", U.p1, 0⟩, ⟨1, "href", U.p2, 1⟩] }
  | U.p1 => .ok { finalUrl := U.p1, contentType := "text/html", contentEnc := "",
                  doc := some [⟨0, "href", U.x, 0⟩] }
  | U.p2 => .ok { finalUrl := U.p2, contentType := "text/html", contentEnc := "",
                  doc := some [⟨0, "href", U.x, 0⟩] }
  | _ => .ok { finalUrl := U.x, contentType := "image/png", contentEnc := "", doc := none }

/-- Test site where every fetch raises a connection error. -/
def fetchDead : U → FetchResult U := fun _ => .err ErrKind.connectionError

/-- Test site where the root is html with link occurrences `a`, `b`, `a`. -/
def fetchDup : U → FetchResult U
  | U.root => .ok { finalUrl := U.root, contentType := "text/html", contentEnc := "",
                    doc := some [⟨0, "href", U.a, 0⟩, ⟨1, "href", U.b, 1⟩,
                                 ⟨2, "href", U.a, 2⟩] }
  | _ => .ok { finalUrl := U.x, contentType := "image/png", contentEnc := "", doc := none }

/-- Test site whose pages are html but fail to parse (no document root). -/
def fetchNoParse : U → FetchResult U :=
  fun u => .ok { finalUrl := u, contentType := "text/html", contentEnc := "", doc := none }

/-- The attempt counter currently recorded for `u`, 0 when `u` is not a
`visited` key. -/
def timesOf {α : Type} [DecidableEq α] (s : SpiderResults α) (u : α) : Nat :=
  match lookupA s.visited u with
  | some rec => rec.times
  | none => 0

/-- Events produced inside one worker task (fetches, callbacks, appends),
as opposed to the scheduling events of the control loop. -/
def evIsLocal {α : Type} : Ev α → Bool
  | Ev.levelStart _ => false
  | Ev.submit _ _ => false
  | Ev.procDone _ _ => false
  | _ => true

/-- Level bounds of the events emitted by the crawl loop from depth
`depth` on: completed tasks carry a level at least `depth`, while level
starts and submissions carry a level at least `depth + 1`. -/
def evLevelBound {α : Type} (depth : Nat) : Ev α → Prop
  | Ev.procDone d _ => depth ≤ d
  | Ev.submit d _ => depth + 1 ≤ d
  | Ev.levelStart d => depth + 1 ≤ d
  | _ => True

/-! ## Association-list lemmas -/

theorem lookupA_setA_self {α β : Type} [DecidableEq α] (m : List (α × β)) (k : α) (v : β) :
    lookupA (setA m k v) k = some v := by
  induction m with
  | nil => simp [setA, lookupA]
  | cons hd tl ih =>
    obtain ⟨k2, v2⟩ := hd
    by_cases h : k = k2 <;> simp [setA, lookupA, h, ih]

theorem lookupA_setA_ne {α β : Type} [DecidableEq α] (m : List (α × β)) {k k2 : α} (v : β)
    (h : k2 ≠ k) : lookupA (setA m k v) k2 = lookupA m k2 := by
  induction m with
  | nil => simp [setA, lookupA, h]
  | cons hd tl ih =>
    obtain ⟨k3, v3⟩ := hd
    by_cases h3 : k = k3
    · subst h3
      simp [setA, lookupA, h]
    · by_cases h4 : k2 = k3 <;> simp [setA, lookupA, h3, h4, ih]

theorem memA_setA {α β : Type} [DecidableEq α] (m : List (α × β)) (k k2 : α) (v : β) :
    memA (setA m k v) k2 = (decide (k2 = k) || memA m k2) := by
  by_cases h : k2 = k
  · subst h
    simp [memA, lookupA_setA_self]
  · simp [memA, lookupA_setA_ne m v h, h]

theorem lookupA_append_some {α β : Type} [DecidableEq α] {m m2 : List (α × β)} {k : α}
    {v : β} (h : lookupA m k = some v) : lookupA (m ++ m2) k = some v := by
  induction m with
  | nil => simp [lookupA] at h
  | cons hd tl ih =>
    obtain ⟨k3, v3⟩ := hd
    by_cases h3 : k = k3 <;> simp_all [lookupA]

theorem lookupA_append_none {α β : Type} [DecidableEq α] {m : List (α × β)} (m2 : List (α × β))
    {k : α} (h : lookupA m k = none) : lookupA (m ++ m2) k = lookupA m2 k := by
  induction m with
  | nil => simp [lookupA]
  | cons hd tl ih =>
    obtain ⟨k3, v3⟩ := hd
    by_cases h3 : k = k3 <;> simp_all [lookupA]

theorem timesNext_eq {α : Type} [DecidableEq α] (s : SpiderResults α) (url : α) :
    Spider.timesNext s url = timesOf s url + 1 := by
  unfold Spider.timesNext timesOf
  cases lookupA s.visited url <;> simp

/-! ## Branch equations for the fetch step -/

theorem get_err {α : Type} [DecidableEq α] (fetch : α → FetchResult α) (url : α)
    (s : SpiderResults α) (e : ErrKind) (h : fetch url = .err e) :
    Spider.get fetch url s =
      ({ s with visited := setA s.visited url {
             redirected := false, redirectUrl := url, contentType := "",
             contentEnc := "", dead := true, exc := some e,
             times := Spider.timesNext s url } },
       none, [Ev.fetchStart url]) := by
  simp [Spider.get, h]

theorem get_ok {α : Type} [DecidableEq α] (fetch : α → FetchResult α) (url : α)
    (s : SpiderResults α) (r : Response α) (h : fetch url = .ok r) :
    Spider.get fetch url s =
      ({ s with
          visited := setA s.visited url {
              redirected := !decide (url = r.finalUrl), redirectUrl := r.finalUrl,
              contentType := r.contentType, contentEnc := r.contentEnc,
              dead := false, exc := none, times := Spider.timesNext s url },
          graph := if memA s.graph url then s.graph else s.graph ++ [(url, [])] },
       some r, [Ev.fetchStart url]) := by
  simp [Spider.get, h]
  by_cases hm : memA s.graph url <;> simp [hm]

/-! ## Step equations for the discovery loop -/

theorem processLinks_nil {α : Type} [DecidableEq α] (url : α) (s : SpiderResults α) :
    Spider.processLinks url [] s = some (s, []) := rfl

theorem processLinks_cons_skip {α : Type} [DecidableEq α] (url : α) (occ : LinkOcc α)
    (rest : List (LinkOcc α)) (s : SpiderResults α)
    (h : ¬(occ.attr = "href" ∧ occ.link ∉ s.urls ∧ memA s.visited occ.link = false)) :
    Spider.processLinks url (occ :: rest) s = Spider.processLinks url rest s := by
  have hg : (decide (occ.attr = "href") && !decide (occ.link ∈ s.urls)
      && !memA s.visited occ.link) = false := by
    by_cases h1 : occ.attr = "href" <;>
      by_cases h2 : occ.link ∈ s.urls <;>
      by_cases h3 : memA s.visited occ.link = false <;>
      simp_all
  simp [Spider.processLinks, hg]

theorem processLinks_cons_dup {α : Type} [DecidableEq α] (url : α) (occ : LinkOcc α)
    (rest : List (LinkOcc α)) (s : SpiderResults α) (adj : List α)
    (h1 : occ.attr = "href") (h2 : occ.link ∉ s.urls)
    (h3 : memA s.visited occ.link = false) (h4 : lookupA s.graph url = some adj)
    (h5 : occ.link ∈ adj) :
    Spider.processLinks url (occ :: rest) s = Spider.processLinks url rest s := by
  simp [Spider.processLinks, h1, h2, h3, h4, h5]

theorem processLinks_cons_key_missing {α : Type} [DecidableEq α] (url : α) (occ : LinkOcc α)
    (rest : List (LinkOcc α)) (s : SpiderResults α)
    (h1 : occ.attr = "href") (h2 : occ.link ∉ s.urls)
    (h3 : memA s.visited occ.link = false) (h4 : lookupA s.graph url = none) :
    Spider.processLinks url (occ :: rest) s = none := by
  simp [Spider.processLinks, h1, h2, h3, h4]

theorem processLinks_cons_add {α : Type} [DecidableEq α] (url : α) (occ : LinkOcc α)
    (rest : List (LinkOcc α)) (s : SpiderResults α) (adj : List α)
    (h1 : occ.attr = "href") (h2 : occ.link ∉ s.urls)
    (h3 : memA s.visited occ.link = false) (h4 : lookupA s.graph url = some adj)
    (h5 : occ.link ∉ adj) :
    Spider.processLinks url (occ :: rest) s =
      match Spider.processLinks url rest
          { s with urls := s.urls ++ [occ.link],
                   graph := setA s.graph url (adj ++ [occ.link]) } with
      | none => none
      | some (s4, evs2) =>
          some (s4, Ev.appendE url occ.link true :: Ev.onLink url occ.link occ.element :: evs2) := by
  simp [Spider.processLinks, h1, h2, h3, h4, h5]

/-! ## Invariants of the discovery loop -/

theorem processLinks_state {α : Type} [DecidableEq α] (url : α) (occs : List (LinkOcc α))
    (s s2 : SpiderResults α) (evs : List (Ev α))
    (h : Spider.processLinks url occs s = some (s2, evs)) :
    s2.visited = s.visited ∧ s2.glock = s.glock ∧ s2.root = s.root ∧
    (∃ ext, s2.urls = s.urls ++ ext) ∧
    (∀ v, v ≠ url → lookupA s2.graph v = lookupA s.graph v) ∧
    (∀ v, memA s2.graph v = memA s.graph v) := by
  induction occs generalizing s evs with
  | nil =>
    rw [processLinks_nil] at h
    obtain ⟨rfl, rfl⟩ : s = s2 ∧ [] = evs := by
      constructor <;> [exact congrArg Prod.fst (Option.some.inj h);
        exact congrArg Prod.snd (Option.some.inj h)]
    exact ⟨rfl, rfl, rfl, ⟨[], by simp⟩, fun v _ => rfl, fun v => rfl⟩
  | cons occ rest ih =>
    by_cases h1 : occ.attr = "href"
    · by_cases h2 : occ.link ∈ s.urls
      · rw [processLinks_cons_skip url occ rest s (by simp [h2])] at h
        exact ih s evs h
      · by_cases h3 : memA s.visited occ.link = false
        · cases hlk : lookupA s.graph url with
          | none => rw [processLinks_cons_key_missing url occ rest s h1 h2 h3 hlk] at h; exact absurd h (by simp)
          | some adj =>
            by_cases h5 : occ.link ∈ adj
            · rw [processLinks_cons_dup url occ rest s adj h1 h2 h3 hlk h5] at h
              exact ih s evs h
            · rw [processLinks_cons_add url occ rest s adj h1 h2 h3 hlk h5] at h
              cases hrec : Spider.processLinks url rest
                  { s with urls := s.urls ++ [occ.link],
                           graph := setA s.graph url (adj ++ [occ.link]) } with
              | none => rw [hrec] at h; exact absurd h (by simp)
              | some p =>
                obtain ⟨s4, evs2⟩ := p
                rw [hrec] at h
                obtain ⟨rfl, rfl⟩ : s4 = s2 ∧
                    Ev.appendE url occ.link true :: Ev.onLink url occ.link occ.element :: evs2
                      = evs := by
                  constructor <;> [exact congrArg Prod.fst (Option.some.inj h);
                    exact congrArg Prod.snd (Option.some.inj h)]
                obtain ⟨hv, hg, hr, ⟨ext, hurl⟩, hlook, hmem⟩ := ih _ evs2 hrec
                refine ⟨by simpa using hv, by simpa using hg, by simpa using hr,
                  ⟨occ.link :: ext, by simpa using hurl⟩, ?_, ?_⟩
                · intro v hvne
                  rw [hlook v hvne]
                  simpa using lookupA_setA_ne s.graph (adj ++ [occ.link]) hvne
                · intro v
                  rw [hmem v]
                  simp only [memA_setA]
                  by_cases hvu : v = url
                  · subst hvu
                    simp [memA, hlk]
                  · simp [hvu]
        · rw [processLinks_cons_skip url occ rest s (by simp [h3])] at h
          exact ih s evs h
    · rw [processLinks_cons_skip url occ rest s (by simp [h1])] at h
      exact ih s evs h

theorem processLinks_evs {α : Type} [DecidableEq α] (url : α) (occs : List (LinkOcc α))
    (s s2 : SpiderResults α) (evs : List (Ev α))
    (h : Spider.processLinks url occs s = some (s2, evs)) :
    ∀ e ∈ evs, (∃ l, e = Ev.appendE url l true) ∨ (∃ l el, e = Ev.onLink url l el) := by
  induction occs generalizing s s2 evs with
  | nil =>
    rw [processLinks_nil] at h
    obtain rfl : ([] : List (Ev α)) = evs := congrArg Prod.snd (Option.some.inj h)
    intro e he
    exact absurd he (by simp)
  | cons occ rest ih =>
    by_cases h1 : occ.attr = "href"
    · by_cases h2 : occ.link ∈ s.urls
      · rw [processLinks_cons_skip url occ rest s (by simp [h2])] at h
        exact ih s s2 evs h
      · by_cases h3 : memA s.visited occ.link = false
        · cases hlk : lookupA s.graph url with
          | none => rw [processLinks_cons_key_missing url occ rest s h1 h2 h3 hlk] at h; exact absurd h (by simp)
          | some adj =>
            by_cases h5 : occ.link ∈ adj
            · rw [processLinks_cons_dup url occ rest s adj h1 h2 h3 hlk h5] at h
              exact ih s s2 evs h
            · rw [processLinks_cons_add url occ rest s adj h1 h2 h3 hlk h5] at h
              cases hrec : Spider.processLinks url rest
                  { s with urls := s.urls ++ [occ.link],
                           graph := setA s.graph url (adj ++ [occ.link]) } with
              | none => rw [hrec] at h; exact absurd h (by simp)
              | some p =>
                obtain ⟨s4, evs2⟩ := p
                rw [hrec] at h
                obtain rfl : Ev.appendE url occ.link true
                      :: Ev.onLink url occ.link occ.element :: evs2 = evs :=
                  congrArg Prod.snd (Option.some.inj h)
                intro e he
                rcases List.mem_cons.mp he with he | he
                · exact Or.inl ⟨occ.link, he⟩
                · rcases List.mem_cons.mp he with he | he
                  · exact Or.inr ⟨occ.link, occ.element, he⟩
                  · exact ih _ s4 evs2 hrec e he
        · rw [processLinks_cons_skip url occ rest s (by simp [h3])] at h
          exact ih s s2 evs h
    · rw [processLinks_cons_skip url occ rest s (by simp [h1])] at h
      exact ih s s2 evs h

theorem processLinks_isSome {α : Type} [DecidableEq α] (url : α) (occs : List (LinkOcc α))
    (s : SpiderResults α) (h : memA s.graph url = true) :
    (Spider.processLinks url occs s).isSome = true := by
  induction occs generalizing s with
  | nil => rw [processLinks_nil]; rfl
  | cons occ rest ih =>
    by_cases h1 : occ.attr = "href"
    · by_cases h2 : occ.link ∈ s.urls
      · rw [processLinks_cons_skip url occ rest s (by simp [h2])]
        exact ih s h
      · by_cases h3 : memA s.visited occ.link = false
        · cases hlk : lookupA s.graph url with
          | none => rw [memA, hlk] at h; exact absurd h (by simp)
          | some adj =>
            by_cases h5 : occ.link ∈ adj
            · rw [processLinks_cons_dup url occ rest s adj h1 h2 h3 hlk h5]
              exact ih s h
            · rw [processLinks_cons_add url occ rest s adj h1 h2 h3 hlk h5]
              have hm2 : memA (setA s.graph url (adj ++ [occ.link])) url = true := by
                simp [memA_setA]
              have := ih { s with urls := s.urls ++ [occ.link],
                                  graph := setA s.graph url (adj ++ [occ.link]) } hm2
              cases hrec : Spider.processLinks url rest
                  { s with urls := s.urls ++ [occ.link],
                           graph := setA s.graph url (adj ++ [occ.link]) } with
              | none => rw [hrec] at this; exact absurd this (by simp)
              | some p => obtain ⟨s4, evs2⟩ := p; simp [hrec]
        · rw [processLinks_cons_skip url occ rest s (by simp [h3])]
          exact ih s h
    · rw [processLinks_cons_skip url occ rest s (by simp [h1])]
      exact ih s h

theorem processLinks_queued {α : Type} [DecidableEq α] (url t : α) (occs : List (LinkOcc α))
    (s s2 : SpiderResults α) (evs : List (Ev α)) (ht : t ∈ s.urls)
    (h : Spider.processLinks url occs s = some (s2, evs)) :
    s2.urls.count t = s.urls.count t ∧
    (∀ v, ((lookupA s2.graph v).getD []).count t = ((lookupA s.graph v).getD []).count t) ∧
    countLinkEv url t evs = 0 := by
  induction occs generalizing s s2 evs with
  | nil =>
    rw [processLinks_nil] at h
    obtain ⟨rfl, rfl⟩ : s = s2 ∧ [] = evs := by
      constructor <;> [exact congrArg Prod.fst (Option.some.inj h);
        exact congrArg Prod.snd (Option.some.inj h)]
    exact ⟨rfl, fun v => rfl, rfl⟩
  | cons occ rest ih =>
    by_cases h1 : occ.attr = "href"
    · by_cases h2 : occ.link ∈ s.urls
      · rw [processLinks_cons_skip url occ rest s (by simp [h2])] at h
        exact ih s s2 evs ht h
      · by_cases h3 : memA s.visited occ.link = false
        · cases hlk : lookupA s.graph url with
          | none => rw [processLinks_cons_key_missing url occ rest s h1 h2 h3 hlk] at h; exact absurd h (by simp)
          | some adj =>
            by_cases h5 : occ.link ∈ adj
            · rw [processLinks_cons_dup url occ rest s adj h1 h2 h3 hlk h5] at h
              exact ih s s2 evs ht h
            · rw [processLinks_cons_add url occ rest s adj h1 h2 h3 hlk h5] at h
              cases hrec : Spider.processLinks url rest
                  { s with urls := s.urls ++ [occ.link],
                           graph := setA s.graph url (adj ++ [occ.link]) } with
              | none => rw [hrec] at h; exact absurd h (by simp)
              | some p =>
                obtain ⟨s4, evs2⟩ := p
                rw [hrec] at h
                obtain ⟨rfl, rfl⟩ : s4 = s2 ∧
                    Ev.appendE url occ.link true :: Ev.onLink url occ.link occ.element :: evs2
                      = evs := by
                  constructor <;> [exact congrArg Prod.fst (Option.some.inj h);
                    exact congrArg Prod.snd (Option.some.inj h)]
                have hne : occ.link ≠ t := fun he => h2 (he ▸ ht)
                have ht2 : t ∈ s.urls ++ [occ.link] := by simp [ht]
                obtain ⟨hu, hg, hev⟩ := ih _ _ evs2 ht2 hrec
                refine ⟨?_, ?_, ?_⟩
                · rw [hu]
                  simp [List.count_append, List.count_cons, hne]
                · intro v
                  rw [hg v]
                  by_cases hvu : v = url
                  · subst hvu
                    simp only [lookupA_setA_self, hlk]
                    simp [List.count_append, List.count_cons, hne]
                  · rw [lookupA_setA_ne s.graph _ hvu]
                · simp [countLinkEv, isLinkEv, hne] at hev ⊢
                  exact hev
        · rw [processLinks_cons_skip url occ rest s (by simp [h3])] at h
          exact ih s s2 evs ht h
    · rw [processLinks_cons_skip url occ rest s (by simp [h1])] at h
      exact ih s s2 evs ht h


theorem processLinks_fresh {α : Type} [DecidableEq α] (url t : α) (occs : List (LinkOcc α))
    (s s2 : SpiderResults α) (evs : List (Ev α)) (adj0 : List α)
    (ht1 : t ∉ s.urls) (ht2 : memA s.visited t = false)
    (hadj : lookupA s.graph url = some adj0) (ht3 : t ∉ adj0)
    (hocc : ∃ occ, occ ∈ occs ∧ occ.attr = "href" ∧ occ.link = t)
    (h : Spider.processLinks url occs s = some (s2, evs)) :
    s2.urls.count t = 1 ∧ ((lookupA s2.graph url).getD []).count t = 1 ∧
    countLinkEv url t evs = 1 := by
  induction occs generalizing s s2 evs adj0 with
  | nil =>
    obtain ⟨o, ho, _, _⟩ := hocc
    exact absurd ho (by simp)
  | cons occ rest ih =>
    obtain ⟨o, ho, ho1, ho2⟩ := hocc
    by_cases h1 : occ.attr = "href"
    · by_cases h2 : occ.link ∈ s.urls
      · rw [processLinks_cons_skip url occ rest s (by simp [h2])] at h
        have homem : o ∈ rest := by
          rcases List.mem_cons.mp ho with rfl | hm
          · exact absurd (ho2 ▸ h2) ht1
          · exact hm
        exact ih s s2 evs adj0 ht1 ht2 hadj ht3 ⟨o, homem, ho1, ho2⟩ h
      · by_cases h3 : memA s.visited occ.link = false
        · by_cases h5 : occ.link ∈ adj0
          · rw [processLinks_cons_dup url occ rest s adj0 h1 h2 h3 hadj h5] at h
            have homem : o ∈ rest := by
              rcases List.mem_cons.mp ho with rfl | hm
              · exact absurd (ho2 ▸ h5) ht3
              · exact hm
            exact ih s s2 evs adj0 ht1 ht2 hadj ht3 ⟨o, homem, ho1, ho2⟩ h
          · rw [processLinks_cons_add url occ rest s adj0 h1 h2 h3 hadj h5] at h
            cases hrec : Spider.processLinks url rest
                { s with urls := s.urls ++ [occ.link],
                         graph := setA s.graph url (adj0 ++ [occ.link]) } with
            | none => rw [hrec] at h; exact absurd h (by simp)
            | some p =>
              obtain ⟨s4, evs2⟩ := p
              rw [hrec] at h
              obtain ⟨rfl, rfl⟩ : s4 = s2 ∧
                  Ev.appendE url occ.link true :: Ev.onLink url occ.link occ.element :: evs2
                    = evs := by
                constructor <;> [exact congrArg Prod.fst (Option.some.inj h);
                  exact congrArg Prod.snd (Option.some.inj h)]
              by_cases hlt : occ.link = t
              · subst hlt
                have htq : occ.link ∈ s.urls ++ [occ.link] := by simp
                obtain ⟨hu, hg, hev⟩ := processLinks_queued url occ.link rest _ _ evs2 htq hrec
                refine ⟨?_, ?_, ?_⟩
                · rw [hu]
                  have : s.urls.count occ.link = 0 := List.count_eq_zero.mpr ht1
                  simp [List.count_append, this]
                · rw [hg url]
                  simp only [lookupA_setA_self, Option.getD_some]
                  have : adj0.count occ.link = 0 := List.count_eq_zero.mpr ht3
                  simp [List.count_append, this]
                · simp [countLinkEv, isLinkEv] at hev ⊢
                  exact hev
              · have homem : o ∈ rest := by
                  rcases List.mem_cons.mp ho with rfl | hm
                  · exact absurd ho2 hlt
                  · exact hm
                have hnt1 : t ∉ s.urls ++ [occ.link] := by
                  simp only [List.mem_append, List.mem_singleton]
                  rintro (hc | hc)
                  · exact ht1 hc
                  · exact hlt hc.symm
                have hnt3 : t ∉ adj0 ++ [occ.link] := by
                  simp only [List.mem_append, List.mem_singleton]
                  rintro (hc | hc)
                  · exact ht3 hc
                  · exact hlt hc.symm
                obtain ⟨hu, hg, hev⟩ := ih
                  { s with urls := s.urls ++ [occ.link],
                           graph := setA s.graph url (adj0 ++ [occ.link]) }
                  _ evs2 (adj0 ++ [occ.link]) hnt1 ht2
                  (lookupA_setA_self s.graph url (adj0 ++ [occ.link])) hnt3
                  ⟨o, homem, ho1, ho2⟩ hrec
                refine ⟨hu, hg, ?_⟩
                have hne2 : occ.link ≠ t := hlt
                simp [countLinkEv, isLinkEv, hne2] at hev ⊢
                exact hev
        · rw [processLinks_cons_skip url occ rest s (by simp [h3])] at h
          have homem : o ∈ rest := by
            rcases List.mem_cons.mp ho with rfl | hm
            · rw [ho2] at h3
              exact absurd ht2 h3
            · exact hm
          exact ih s s2 evs adj0 ht1 ht2 hadj ht3 ⟨o, homem, ho1, ho2⟩ h
    · rw [processLinks_cons_skip url occ rest s (by simp [h1])] at h
      have homem : o ∈ rest := by
        rcases List.mem_cons.mp ho with rfl | hm
        · exact absurd ho1 h1
        · exact hm
      exact ih s s2 evs adj0 ht1 ht2 hadj ht3 ⟨o, homem, ho1, ho2⟩ h


/-! ## The page-processing step -/

theorem filter_length_zero {γ : Type} (p : γ → Bool) (l : List γ)
    (h : ∀ e ∈ l, p e = false) : (l.filter p).length = 0 := by
  induction l with
  | nil => rfl
  | cons a t ih =>
    have ha : p a = false := h a (List.mem_cons_self a t)
    have ht : ∀ e ∈ t, p e = false := fun e he => h e (List.mem_cons_of_mem a he)
    rw [List.filter_cons, ha]
    simpa using ih ht

theorem get_ok_memA {α : Type} [DecidableEq α] (fetch : α → FetchResult α) (url : α)
    (s : SpiderResults α) (r : Response α) (hf : fetch url = .ok r) :
    memA (Spider.get fetch url s).1.graph url = true := by
  rw [get_ok fetch url s r hf]
  cases hlk : lookupA s.graph url with
  | some adj =>
    have hm : memA s.graph url = true := by simp [memA, hlk]
    simp [hm, memA, hlk]
  | none =>
    have hm : memA s.graph url = false := by simp [memA, hlk]
    have h2 := lookupA_append_none [(url, ([] : List α))] hlk
    simp [hm, memA, h2, hlk, lookupA]

theorem processPage_err {α : Type} [DecidableEq α] (fetch : α → FetchResult α) (url : α)
    (s : SpiderResults α) (e : ErrKind) (hf : fetch url = .err e) :
    Spider.processPage fetch url s = some ((Spider.get fetch url s).1, [Ev.fetchStart url]) := by
  simp [Spider.processPage, get_err fetch url s e hf]

theorem processPage_not_html {α : Type} [DecidableEq α] (fetch : α → FetchResult α) (url : α)
    (s : SpiderResults α) (r : Response α) (hf : fetch url = .ok r) (hh : ishtml r = false) :
    Spider.processPage fetch url s =
      some ((Spider.get fetch url s).1, [Ev.fetchStart url, Ev.onResponse url]) := by
  simp [Spider.processPage, get_ok fetch url s r hf, hh]

theorem processPage_parse_fail {α : Type} [DecidableEq α] (fetch : α → FetchResult α) (url : α)
    (s : SpiderResults α) (r : Response α) (hf : fetch url = .ok r) (hh : ishtml r = true)
    (hdoc : r.doc = none) :
    Spider.processPage fetch url s =
      some ((Spider.get fetch url s).1, [Ev.fetchStart url, Ev.onResponse url]) := by
  simp [Spider.processPage, get_ok fetch url s r hf, hh, hdoc]

theorem processPage_html {α : Type} [DecidableEq α] (fetch : α → FetchResult α) (url : α)
    (s : SpiderResults α) (r : Response α) (occs : List (LinkOcc α)) (hf : fetch url = .ok r)
    (hh : ishtml r = true) (hdoc : r.doc = some occs) :
    Spider.processPage fetch url s =
      match Spider.processLinks url occs (Spider.get fetch url s).1 with
      | none => none
      | some (s3, evs3) =>
          some (s3, [Ev.fetchStart url, Ev.onResponse url, Ev.onHtml url] ++ evs3) := by
  simp only [Spider.processPage, get_ok fetch url s r hf, hh, hdoc, if_true]
  cases hrec : Spider.processLinks url occs (Spider.get fetch url s).1 with
  | none =>
    rw [get_ok fetch url s r hf] at hrec
    simp [hrec]
  | some p =>
    obtain ⟨s3, evs3⟩ := p
    rw [get_ok fetch url s r hf] at hrec
    simp [hrec]

theorem processPage_isSome {α : Type} [DecidableEq α] (fetch : α → FetchResult α) (url : α)
    (s : SpiderResults α) : (Spider.processPage fetch url s).isSome = true := by
  cases hf : fetch url with
  | err e => rw [processPage_err fetch url s e hf]; rfl
  | ok r =>
    by_cases hh : ishtml r
    · cases hdoc : r.doc with
      | none => rw [processPage_parse_fail fetch url s r hf hh hdoc]; rfl
      | some occs =>
        rw [processPage_html fetch url s r occs hf hh hdoc]
        have hmem : memA (Spider.get fetch url s).1.graph url = true :=
          get_ok_memA fetch url s r hf
        have hsome := processLinks_isSome url occs (Spider.get fetch url s).1 hmem
        cases hrec : Spider.processLinks url occs (Spider.get fetch url s).1 with
        | none => rw [hrec] at hsome; exact absurd hsome (by simp)
        | some p => obtain ⟨s3, evs3⟩ := p; simp
    · rw [processPage_not_html fetch url s r hf (by simpa using hh)]; rfl

theorem get_visited {α : Type} [DecidableEq α] (fetch : α → FetchResult α) (url : α)
    (s : SpiderResults α) :
    ∃ rec : VisitRecord α, (Spider.get fetch url s).1.visited = setA s.visited url rec ∧
      rec.times = timesOf s url + 1 := by
  cases hf : fetch url with
  | ok r =>
    rw [get_ok fetch url s r hf]
    exact ⟨_, rfl, timesNext_eq s url⟩
  | err e =>
    rw [get_err fetch url s e hf]
    exact ⟨_, rfl, timesNext_eq s url⟩

theorem processPage_spec {α : Type} [DecidableEq α] (fetch : α → FetchResult α) (url : α)
    (s s2 : SpiderResults α) (evs : List (Ev α))
    (h : Spider.processPage fetch url s = some (s2, evs)) :
    (∃ rec : VisitRecord α, s2.visited = setA s.visited url rec ∧
        rec.times = timesOf s url + 1) ∧
    (∀ u, countFetch u evs = if u = url then 1 else 0) ∧
    (∀ e ∈ evs, evIsLocal e = true) ∧
    (∀ p l b, Ev.appendE p l b ∈ evs → b = true) := by
  have hgv := get_visited fetch url s
  cases hf : fetch url with
  | err e =>
    rw [processPage_err fetch url s e hf] at h
    obtain ⟨rfl, rfl⟩ : (Spider.get fetch url s).1 = s2 ∧ [Ev.fetchStart url] = evs := by
      constructor <;> [exact congrArg Prod.fst (Option.some.inj h);
        exact congrArg Prod.snd (Option.some.inj h)]
    refine ⟨hgv, ?_, ?_, ?_⟩
    · intro u
      by_cases hu : u = url
      · simp [countFetch, List.filter, hu]
      · have hu2 : url ≠ u := fun hc => hu hc.symm
        simp [countFetch, List.filter, hu, hu2]
    · intro e2 he
      simp only [List.mem_singleton] at he
      subst he
      rfl
    · intro p l b hb
      simp at hb
  | ok r =>
    by_cases hh : ishtml r
    · cases hdoc : r.doc with
      | none =>
        rw [processPage_parse_fail fetch url s r hf hh hdoc] at h
        obtain ⟨rfl, rfl⟩ : (Spider.get fetch url s).1 = s2 ∧
            [Ev.fetchStart url, Ev.onResponse url] = evs := by
          constructor <;> [exact congrArg Prod.fst (Option.some.inj h);
            exact congrArg Prod.snd (Option.some.inj h)]
        refine ⟨hgv, ?_, ?_, ?_⟩
        · intro u
          by_cases hu : u = url
          · simp [countFetch, List.filter, hu]
          · have hu2 : url ≠ u := fun hc => hu hc.symm
            simp [countFetch, List.filter, hu, hu2]
        · intro e2 he
          rcases List.mem_cons.mp he with rfl | he
          · rfl
          · simp only [List.mem_singleton] at he
            subst he
            rfl
        · intro p l b hb
          simp at hb
      | some occs =>
        rw [processPage_html fetch url s r occs hf hh hdoc] at h
        cases hrec : Spider.processLinks url occs (Spider.get fetch url s).1 with
        | none => rw [hrec] at h; exact absurd h (by simp)
        | some p2 =>
          obtain ⟨s3, evs3⟩ := p2
          rw [hrec] at h
          obtain ⟨rfl, rfl⟩ : s3 = s2 ∧
              [Ev.fetchStart url, Ev.onResponse url, Ev.onHtml url] ++ evs3 = evs := by
            constructor <;> [exact congrArg Prod.fst (Option.some.inj h);
              exact congrArg Prod.snd (Option.some.inj h)]
          have hcl := processLinks_evs url occs _ _ evs3 hrec
          have hst := processLinks_state url occs _ _ evs3 hrec
          refine ⟨?_, ?_, ?_, ?_⟩
          · rw [hst.1]
            exact hgv
          · intro u
            have hz : countFetch u evs3 = 0 := by
              apply filter_length_zero
              intro e2 he
              rcases hcl e2 he with ⟨l, rfl⟩ | ⟨l, el, rfl⟩ <;> rfl
            rw [countFetch, List.filter_append, List.length_append]
            rw [countFetch] at hz
            rw [hz]
            by_cases hu : u = url
            · simp [countFetch, List.filter, hu]
            · have hu2 : url ≠ u := fun hc => hu hc.symm
              simp [countFetch, List.filter, hu, hu2]
          · intro e2 he
            rcases List.mem_append.mp he with he | he
            · rcases List.mem_cons.mp he with rfl | he
              · rfl
              · rcases List.mem_cons.mp he with rfl | he
                · rfl
                · simp only [List.mem_singleton] at he
                  subst he
                  rfl
            · rcases hcl e2 he with ⟨l, rfl⟩ | ⟨l, el, rfl⟩ <;> rfl
          · intro p l b hb
            rcases List.mem_append.mp hb with hb | hb
            · simp at hb
            · rcases hcl _ hb with ⟨l2, heq⟩ | ⟨l2, el, heq⟩
              · cases heq
                rfl
              · cases heq
    · rw [processPage_not_html fetch url s r hf (by simpa using hh)] at h
      obtain ⟨rfl, rfl⟩ : (Spider.get fetch url s).1 = s2 ∧
          [Ev.fetchStart url, Ev.onResponse url] = evs := by
        constructor <;> [exact congrArg Prod.fst (Option.some.inj h);
          exact congrArg Prod.snd (Option.some.inj h)]
      refine ⟨hgv, ?_, ?_, ?_⟩
      · intro u
        by_cases hu : u = url
        · simp [countFetch, List.filter, hu]
        · have hu2 : url ≠ u := fun hc => hu hc.symm
          simp [countFetch, List.filter, hu, hu2]
      · intro e2 he
        rcases List.mem_cons.mp he with rfl | he
        · rfl
        · simp only [List.mem_singleton] at he
          subst he
          rfl
      · intro p l b hb
        simp at hb

/-! ## The worker-pool level step -/

theorem runTasks_nil {α : Type} [DecidableEq α] (fetch : α → FetchResult α) (d : Nat)
    (s : SpiderResults α) : Spider.runTasks fetch d [] s = some (s, []) := rfl

theorem runTasks_isSome {α : Type} [DecidableEq α] (fetch : α → FetchResult α) (d : Nat)
    (todo : List α) (s : SpiderResults α) :
    (Spider.runTasks fetch d todo s).isSome = true := by
  induction todo generalizing s with
  | nil => rfl
  | cons u rest ih =>
    have h1 := processPage_isSome fetch u s
    cases hp : Spider.processPage fetch u s with
    | none => rw [hp] at h1; exact absurd h1 (by simp)
    | some p =>
      obtain ⟨s1, evs1⟩ := p
      have h2 := ih s1
      cases hr : Spider.runTasks fetch d rest s1 with
      | none => rw [hr] at h2; exact absurd h2 (by simp)
      | some p2 =>
        obtain ⟨s2, evs2⟩ := p2
        simp [Spider.runTasks, hp, hr]

theorem decide_pos_add (x y : Nat) :
    (decide (0 < x) || decide (0 < y)) = decide (0 < x + y) := by
  by_cases hx : 0 < x <;> by_cases hy : 0 < y <;> simp [hx, hy]

theorem processPage_times {α : Type} [DecidableEq α] (fetch : α → FetchResult α) (url : α)
    (s s2 : SpiderResults α) (evs : List (Ev α))
    (h : Spider.processPage fetch url s = some (s2, evs)) :
    (∀ u, timesOf s2 u = timesOf s u + countFetch u evs) ∧
    (∀ u, memA s2.visited u = (memA s.visited u || decide (0 < countFetch u evs))) := by
  obtain ⟨⟨rec, hv, htimes⟩, hcf, _, _⟩ := processPage_spec fetch url s s2 evs h
  constructor
  · intro u
    rw [hcf u]
    by_cases hu : u = url
    · subst hu
      rw [timesOf, hv, lookupA_setA_self]
      simp [htimes, timesOf]
    · rw [timesOf, hv, lookupA_setA_ne s.visited rec hu]
      simp [hu, timesOf]
  · intro u
    rw [hcf u, hv, memA_setA]
    by_cases hu : u = url <;> simp [hu]

theorem runTasks_spec {α : Type} [DecidableEq α] (fetch : α → FetchResult α) (d : Nat)
    (todo : List α) (s s2 : SpiderResults α) (evs : List (Ev α))
    (h : Spider.runTasks fetch d todo s = some (s2, evs)) :
    (∀ u, timesOf s2 u = timesOf s u + countFetch u evs) ∧
    (∀ u, memA s2.visited u = (memA s.visited u || decide (0 < countFetch u evs))) ∧
    (∀ e ∈ evs, evIsLocal e = true ∨ ∃ u2, e = Ev.procDone d u2) ∧
    (∀ p l b, Ev.appendE p l b ∈ evs → b = true) := by
  induction todo generalizing s evs with
  | nil =>
    rw [runTasks_nil] at h
    obtain ⟨rfl, rfl⟩ : s = s2 ∧ [] = evs := by
      constructor <;> [exact congrArg Prod.fst (Option.some.inj h);
        exact congrArg Prod.snd (Option.some.inj h)]
    exact ⟨fun u => by simp [countFetch], fun u => by simp [countFetch],
      fun e he => absurd he (by simp), fun p l b hb => absurd hb (by simp)⟩
  | cons u2 rest ih =>
    cases hp : Spider.processPage fetch u2 s with
    | none =>
      have h1 := processPage_isSome fetch u2 s
      rw [hp] at h1
      exact absurd h1 (by simp)
    | some p =>
      obtain ⟨s1, evs1⟩ := p
      cases hr : Spider.runTasks fetch d rest s1 with
      | none =>
        have h1 := runTasks_isSome fetch d rest s1
        rw [hr] at h1
        exact absurd h1 (by simp)
      | some p2 =>
        obtain ⟨s3, evs2⟩ := p2
        simp only [Spider.runTasks, hp, hr] at h
        obtain ⟨rfl, rfl⟩ : s3 = s2 ∧ (evs1 ++ [Ev.procDone d u2]) ++ evs2 = evs := by
          constructor <;> [exact congrArg Prod.fst (Option.some.inj h);
            exact congrArg Prod.snd (Option.some.inj h)]
        obtain ⟨ht1, hm1⟩ := processPage_times fetch u2 s s1 evs1 hp
        obtain ⟨_, hcf1, hloc1, hlk1⟩ := processPage_spec fetch u2 s s1 evs1 hp
        obtain ⟨ht2, hm2, hloc2, hlk2⟩ := ih s1 evs2 hr
        have hcount : ∀ u, countFetch u ((evs1 ++ [Ev.procDone d u2]) ++ evs2)
            = countFetch u evs1 + countFetch u evs2 := by
          intro u
          simp [countFetch, List.filter_append, List.filter]
        refine ⟨?_, ?_, ?_, ?_⟩
        · intro u
          rw [hcount u, ht2 u, ht1 u]
          omega
        · intro u
          rw [hcount u, hm2 u, hm1 u, Bool.or_assoc, decide_pos_add]
        · intro e he
          rcases List.mem_append.mp he with he | he
          · rcases List.mem_append.mp he with he | he
            · exact Or.inl (hloc1 e he)
            · simp only [List.mem_singleton] at he
              subst he
              exact Or.inr ⟨u2, rfl⟩
          · exact hloc2 e he
        · intro p l b hb
          rcases List.mem_append.mp hb with hb | hb
          · rcases List.mem_append.mp hb with hb | hb
            · exact hlk1 p l b hb
            · simp at hb
          · exact hlk2 p l b hb

/-! ## The level loop -/

theorem countFetch_append {α : Type} [DecidableEq α] (u : α) (l1 l2 : List (Ev α)) :
    countFetch u (l1 ++ l2) = countFetch u l1 + countFetch u l2 := by
  simp [countFetch, List.filter_append]

theorem countFetch_submitEvs {α : Type} [DecidableEq α] (u : α) (d : Nat) (l : List α) :
    countFetch u (Spider.submitEvs d l) = 0 := by
  apply filter_length_zero
  intro e he
  simp only [Spider.submitEvs, List.mem_map] at he
  obtain ⟨u2, _, rfl⟩ := he
  rfl

theorem evLevelBound_mono {α : Type} (d1 d2 : Nat) (e : Ev α) (hd : d1 ≤ d2)
    (h : evLevelBound d2 e) : evLevelBound d1 e := by
  cases e <;> simp [evLevelBound] at h ⊢ <;> omega

theorem spiderLoop_isSome {α : Type} [DecidableEq α] (fetch : α → FetchResult α)
    (fuel depth : Nat) (pending : List α) (s : SpiderResults α) :
    (Spider.spiderLoop fetch fuel depth pending s).isSome = true := by
  induction fuel generalizing depth pending s with
  | zero => exact runTasks_isSome fetch depth pending s
  | succ fuel ih =>
    have h1 := runTasks_isSome fetch depth pending s
    cases hrt : Spider.runTasks fetch depth pending s with
    | none => rw [hrt] at h1; exact absurd h1 (by simp)
    | some p =>
      obtain ⟨s1, evA⟩ := p
      have h2 := ih (depth + 1) s1.urls { s1 with urls := [] }
      cases hloop : Spider.spiderLoop fetch fuel (depth + 1) s1.urls { s1 with urls := [] } with
      | none => rw [hloop] at h2; exact absurd h2 (by simp)
      | some p2 =>
        obtain ⟨s3, evB⟩ := p2
        simp [Spider.spiderLoop, hrt, hloop]

theorem spiderLoop_spec {α : Type} [DecidableEq α] (fetch : α → FetchResult α)
    (fuel depth : Nat) (pending : List α) (s s2 : SpiderResults α) (evs : List (Ev α))
    (h : Spider.spiderLoop fetch fuel depth pending s = some (s2, evs)) :
    (∀ u, timesOf s2 u = timesOf s u + countFetch u evs) ∧
    (∀ u, memA s2.visited u = (memA s.visited u || decide (0 < countFetch u evs))) ∧
    (∀ p l b, Ev.appendE p l b ∈ evs → b = true) ∧
    (∀ e ∈ evs, evLevelBound depth e) := by
  induction fuel generalizing depth pending s evs with
  | zero =>
    obtain ⟨ht, hm, hcl, hlk⟩ := runTasks_spec fetch depth pending s s2 evs h
    refine ⟨ht, hm, hlk, ?_⟩
    intro e he
    rcases hcl e he with hl | ⟨u2, rfl⟩
    · cases e <;> simp [evIsLocal] at hl <;> simp [evLevelBound]
    · simp [evLevelBound]
  | succ fuel ih =>
    have h1 := runTasks_isSome fetch depth pending s
    cases hrt : Spider.runTasks fetch depth pending s with
    | none => rw [hrt] at h1; exact absurd h1 (by simp)
    | some p =>
      obtain ⟨s1, evA⟩ := p
      have h2 := spiderLoop_isSome fetch fuel (depth + 1) s1.urls { s1 with urls := [] }
      cases hloop : Spider.spiderLoop fetch fuel (depth + 1) s1.urls { s1 with urls := [] } with
      | none => rw [hloop] at h2; exact absurd h2 (by simp)
      | some p2 =>
        obtain ⟨s3, evB⟩ := p2
        simp only [Spider.spiderLoop, hrt, hloop] at h
        obtain ⟨rfl, rfl⟩ : s3 = s2 ∧
            evA ++ (Ev.levelStart (depth + 1) :: Spider.submitEvs (depth + 1) s1.urls) ++ evB
              = evs := by
          constructor <;> [exact congrArg Prod.fst (Option.some.inj h);
            exact congrArg Prod.snd (Option.some.inj h)]
        obtain ⟨htA, hmA, hclA, hlkA⟩ := runTasks_spec fetch depth pending s s1 evA hrt
        obtain ⟨htB, hmB, hlkB, hbB⟩ := ih (depth + 1) s1.urls { s1 with urls := [] } evB hloop
        have hmid : ∀ u, countFetch u
            (Ev.levelStart (depth + 1) :: Spider.submitEvs (depth + 1) s1.urls) = 0 := by
          intro u
          have := countFetch_submitEvs u (depth + 1) s1.urls
          simp [countFetch, List.filter] at this ⊢
          exact this
        have hcnt : ∀ u, countFetch u
            (evA ++ (Ev.levelStart (depth + 1) :: Spider.submitEvs (depth + 1) s1.urls) ++ evB)
            = countFetch u evA + countFetch u evB := by
          intro u
          rw [countFetch_append, countFetch_append, hmid u]
          omega
        refine ⟨?_, ?_, ?_, ?_⟩
        · intro u
          rw [hcnt u, htB u]
          have : timesOf { s1 with urls := ([] : List α) } u = timesOf s1 u := rfl
          rw [this, htA u]
          omega
        · intro u
          rw [hcnt u, hmB u]
          have : memA (SpiderResults.visited { s1 with urls := ([] : List α) }) u
              = memA s1.visited u := rfl
          rw [this, hmA u, Bool.or_assoc, decide_pos_add]
        · intro p l b hb
          rcases List.mem_append.mp hb with hb | hb
          · rcases List.mem_append.mp hb with hb | hb
            · exact hlkA p l b hb
            · rcases List.mem_cons.mp hb with hb | hb
              · cases hb
              · simp only [Spider.submitEvs, List.mem_map] at hb
                obtain ⟨u2, _, hb⟩ := hb
                cases hb
          · exact hlkB p l b hb
        · intro e he
          rcases List.mem_append.mp he with he | he
          · rcases List.mem_append.mp he with he | he
            · obtain ⟨_, _, _, hclA2⟩ := runTasks_spec fetch depth pending s s1 evA hrt
              rcases (runTasks_spec fetch depth pending s s1 evA hrt).2.2.1 e he with hl | ⟨u2, rfl⟩
              · cases e <;> simp [evIsLocal] at hl <;> simp [evLevelBound]
              · simp [evLevelBound]
            · rcases List.mem_cons.mp he with rfl | he
              · simp [evLevelBound]
              · simp only [Spider.submitEvs, List.mem_map] at he
                obtain ⟨u2, _, rfl⟩ := he
                simp [evLevelBound]
          · exact evLevelBound_mono depth (depth + 1) e (by omega) (hbB e he)

theorem spiderLoop_empty {α : Type} [DecidableEq α] (fetch : α → FetchResult α)
    (fuel depth : Nat) (s : SpiderResults α) (hurls : s.urls = []) :
    Spider.spiderLoop fetch fuel depth [] s =
      some (s, (List.range' (depth + 1) fuel).map Ev.levelStart) := by
  induction fuel generalizing depth with
  | zero => simp [Spider.spiderLoop, runTasks_nil, List.range']
  | succ fuel ih =>
    have hs : ({ s with urls := [] } : SpiderResults α) = s := by
      rw [← hurls]
    simp only [Spider.spiderLoop, runTasks_nil]
    rw [hurls, hs, ih (depth + 1)]
    simp [Spider.submitEvs, List.range']

theorem spider_dead_root {α : Type} [DecidableEq α] (fetch : α → FetchResult α) (root : α)
    (maxDepth : Nat) (e : ErrKind) (hf : fetch root = .err e) :
    Spider.spider fetch root maxDepth =
      some ({ graph := [], visited := [(root, {
                redirected := false, redirectUrl := root, contentType := "",
                contentEnc := "", dead := true, exc := some e, times := 1 })],
              urls := [], glock := 0, root := root },
            Ev.levelStart 1 :: Ev.submit 1 root :: Ev.fetchStart root :: Ev.procDone 1 root ::
              (List.range' 2 (maxDepth - 1)).map Ev.levelStart) := by
  have hrt : Spider.runTasks fetch 1 [root] (Spider.initResults root) =
      some ({ graph := [], visited := [(root, {
                redirected := false, redirectUrl := root, contentType := "",
                contentEnc := "", dead := true, exc := some e, times := 1 })],
              urls := [], glock := 0, root := root },
            [Ev.fetchStart root, Ev.procDone 1 root]) := by
    simp [Spider.runTasks, processPage_err fetch root _ e hf, get_err fetch root _ e hf,
      Spider.initResults, Spider.timesNext, lookupA, setA, runTasks_nil]
  have hloop : Spider.spiderLoop fetch (maxDepth - 1) 1 [root] (Spider.initResults root) =
      some ({ graph := [], visited := [(root, {
                redirected := false, redirectUrl := root, contentType := "",
                contentEnc := "", dead := true, exc := some e, times := 1 })],
              urls := [], glock := 0, root := root },
            Ev.fetchStart root :: Ev.procDone 1 root ::
              (List.range' 2 (maxDepth - 1)).map Ev.levelStart) := by
    cases hfu : maxDepth - 1 with
    | zero =>
      show Spider.runTasks fetch 1 [root] (Spider.initResults root) = _
      rw [hrt]
      simp [List.range']
    | succ f =>
      simp only [Spider.spiderLoop, hrt]
      rw [spiderLoop_empty fetch f 2 _ rfl]
      simp [Spider.submitEvs, List.range']
  simp only [Spider.spider, hloop]

/-! ## Submission bookkeeping for the level barrier -/

theorem submittedAt_append {α : Type} (d : Nat) (l1 l2 : List (Ev α)) :
    submittedAt d (l1 ++ l2) = submittedAt d l1 ++ submittedAt d l2 := by
  simp [submittedAt, List.filterMap_append]

theorem submittedAt_submitEvs_self {α : Type} (d : Nat) (l : List α) :
    submittedAt d (Spider.submitEvs d l) = l := by
  induction l with
  | nil => rfl
  | cons a l ih => simp [Spider.submitEvs, submittedAt, List.filterMap_cons] at ih ⊢; exact ih

theorem submittedAt_submitEvs_ne {α : Type} (d d2 : Nat) (l : List α) (hne : d2 ≠ d) :
    submittedAt d (Spider.submitEvs d2 l) = [] := by
  induction l with
  | nil => rfl
  | cons a l ih =>
    simp only [Spider.submitEvs, List.map_cons, submittedAt, List.filterMap_cons, hne, if_false]
      at ih ⊢
    exact ih

theorem submittedAt_eq_nil {α : Type} (d : Nat) (l : List (Ev α))
    (h : ∀ v, Ev.submit d v ∉ l) : submittedAt d l = [] := by
  induction l with
  | nil => rfl
  | cons e l ih =>
    have hl : ∀ v, Ev.submit d v ∉ l := fun v hv => h v (List.mem_cons_of_mem e hv)
    cases e with
    | submit d2 u =>
      have hne : d2 ≠ d := by
        intro hc
        subst hc
        exact h u (List.mem_cons_self _ _)
      simp [submittedAt, List.filterMap_cons, hne] at ih ⊢
      exact ih hl
    | levelStart d2 => simp [submittedAt, List.filterMap_cons] at ih ⊢; exact ih hl
    | fetchStart u => simp [submittedAt, List.filterMap_cons] at ih ⊢; exact ih hl
    | procDone d2 u => simp [submittedAt, List.filterMap_cons] at ih ⊢; exact ih hl
    | onResponse u => simp [submittedAt, List.filterMap_cons] at ih ⊢; exact ih hl
    | onHtml u => simp [submittedAt, List.filterMap_cons] at ih ⊢; exact ih hl
    | onLink p u el => simp [submittedAt, List.filterMap_cons] at ih ⊢; exact ih hl
    | appendE p u b => simp [submittedAt, List.filterMap_cons] at ih ⊢; exact ih hl

theorem runTasks_no_submit {α : Type} [DecidableEq α] (fetch : α → FetchResult α) (d : Nat)
    (todo : List α) (s s2 : SpiderResults α) (evs : List (Ev α))
    (h : Spider.runTasks fetch d todo s = some (s2, evs)) :
    ∀ d2 v, Ev.submit d2 v ∉ evs := by
  intro d2 v hm
  rcases (runTasks_spec fetch d todo s s2 evs h).2.2.1 _ hm with hl | ⟨u2, heq⟩
  · exact absurd hl (by simp [evIsLocal])
  · cases heq

theorem spiderLoop_no_submit_le {α : Type} [DecidableEq α] (fetch : α → FetchResult α)
    (fuel depth : Nat) (pending : List α) (s s2 : SpiderResults α) (evs : List (Ev α))
    (h : Spider.spiderLoop fetch fuel depth pending s = some (s2, evs))
    (d : Nat) (hd : d ≤ depth) : ∀ v, Ev.submit d v ∉ evs := by
  intro v hm
  have hb := (spiderLoop_spec fetch fuel depth pending s s2 evs h).2.2.2 _ hm
  simp only [evLevelBound] at hb
  omega

theorem spiderLoop_split {α : Type} [DecidableEq α] (fetch : α → FetchResult α)
    (fuel depth : Nat) (pending : List α) (s s2 : SpiderResults α) (evs : List (Ev α))
    (h : Spider.spiderLoop fetch fuel depth pending s = some (s2, evs))
    (d : Nat) (hd : depth ≤ d) :
    ∃ A B, evs = A ++ B ∧ (∀ v, Ev.submit (d + 1) v ∉ A) ∧ (∀ u, Ev.procDone d u ∉ B) := by
  induction fuel generalizing depth pending s evs with
  | zero =>
    refine ⟨evs, [], by simp, ?_, by simp⟩
    intro v hm
    exact runTasks_no_submit fetch depth pending s s2 evs h (d + 1) v hm
  | succ fuel ih =>
    have h1 := runTasks_isSome fetch depth pending s
    cases hrt : Spider.runTasks fetch depth pending s with
    | none => rw [hrt] at h1; exact absurd h1 (by simp)
    | some p =>
      obtain ⟨s1, evA⟩ := p
      have h2 := spiderLoop_isSome fetch fuel (depth + 1) s1.urls { s1 with urls := [] }
      cases hloop : Spider.spiderLoop fetch fuel (depth + 1) s1.urls { s1 with urls := [] } with
      | none => rw [hloop] at h2; exact absurd h2 (by simp)
      | some p2 =>
        obtain ⟨s3, evB⟩ := p2
        simp only [Spider.spiderLoop, hrt, hloop] at h
        obtain ⟨rfl, rfl⟩ : s3 = s2 ∧
            evA ++ (Ev.levelStart (depth + 1) :: Spider.submitEvs (depth + 1) s1.urls) ++ evB
              = evs := by
          constructor <;> [exact congrArg Prod.fst (Option.some.inj h);
            exact congrArg Prod.snd (Option.some.inj h)]
        by_cases hdd : d = depth
        · subst hdd
          refine ⟨evA ++ [Ev.levelStart (d + 1)],
            Spider.submitEvs (d + 1) s1.urls ++ evB, by simp, ?_, ?_⟩
          · intro v hm
            rcases List.mem_append.mp hm with hm | hm
            · exact runTasks_no_submit fetch d pending s s1 evA hrt (d + 1) v hm
            · simp at hm
          · intro u hm
            rcases List.mem_append.mp hm with hm | hm
            · simp only [Spider.submitEvs, List.mem_map] at hm
              obtain ⟨u2, _, hm⟩ := hm
              cases hm
            · have hb := (spiderLoop_spec fetch fuel (d + 1) s1.urls
                  { s1 with urls := [] } _ evB hloop).2.2.2 _ hm
              simp only [evLevelBound] at hb
              omega
        · have hd2 : depth + 1 ≤ d := by omega
          obtain ⟨A2, B2, hAB, hnA, hnB⟩ :=
            ih (depth + 1) s1.urls { s1 with urls := [] } evB hloop hd2
          refine ⟨evA ++ (Ev.levelStart (depth + 1) :: Spider.submitEvs (depth + 1) s1.urls)
              ++ A2, B2, ?_, ?_, hnB⟩
          · rw [hAB]
            simp
          · intro v hm
            rcases List.mem_append.mp hm with hm | hm
            · rcases List.mem_append.mp hm with hm | hm
              · exact runTasks_no_submit fetch depth pending s s1 evA hrt (d + 1) v hm
              · rcases List.mem_cons.mp hm with hm | hm
                · cases hm
                · simp only [Spider.submitEvs, List.mem_map] at hm
                  obtain ⟨u2, _, hm⟩ := hm
                  have : depth + 1 = d + 1 := by
                    cases hm
                    rfl
                  omega
            · exact hnA v hm

theorem spiderLoop_submittedAt {α : Type} [DecidableEq α] (fetch : α → FetchResult α)
    (k : Nat) (fuel depth : Nat) (pending : List α) (s s2 : SpiderResults α) (evs : List (Ev α))
    (st : SpiderResults α) (pend : List α)
    (h : Spider.spiderLoop fetch fuel depth pending s = some (s2, evs))
    (hk : k < fuel)
    (hl : levelsFrom fetch depth (k + 1) (s, pending) = some (st, pend)) :
    submittedAt (depth + k + 1) evs = pend := by
  induction k generalizing fuel depth pending s evs with
  | zero =>
    cases fuel with
    | zero => omega
    | succ f =>
      have h1 := runTasks_isSome fetch depth pending s
      cases hrt : Spider.runTasks fetch depth pending s with
      | none => rw [hrt] at h1; exact absurd h1 (by simp)
      | some p =>
        obtain ⟨s1, evA⟩ := p
        have h2 := spiderLoop_isSome fetch f (depth + 1) s1.urls { s1 with urls := [] }
        cases hloop : Spider.spiderLoop fetch f (depth + 1) s1.urls { s1 with urls := [] } with
        | none => rw [hloop] at h2; exact absurd h2 (by simp)
        | some p2 =>
          obtain ⟨s3, evB⟩ := p2
          simp only [Spider.spiderLoop, hrt, hloop] at h
          obtain ⟨rfl, rfl⟩ : s3 = s2 ∧
              evA ++ (Ev.levelStart (depth + 1) :: Spider.submitEvs (depth + 1) s1.urls) ++ evB
                = evs := by
            constructor <;> [exact congrArg Prod.fst (Option.some.inj h);
              exact congrArg Prod.snd (Option.some.inj h)]
          simp only [levelsFrom, hrt] at hl
          have hpend : s1.urls = pend := congrArg Prod.snd (Option.some.inj hl)
          have hA : submittedAt (depth + 1) evA = [] :=
            submittedAt_eq_nil _ _ (fun v =>
              runTasks_no_submit fetch depth pending s s1 evA hrt (depth + 1) v)
          have hB : submittedAt (depth + 1) evB = [] :=
            submittedAt_eq_nil _ _ (fun v =>
              spiderLoop_no_submit_le fetch f (depth + 1) s1.urls { s1 with urls := [] }
                _ evB hloop (depth + 1) (by omega) v)
          show submittedAt (depth + 0 + 1)
              (evA ++ (Ev.levelStart (depth + 1) :: Spider.submitEvs (depth + 1) s1.urls)
                ++ evB) = pend
          have hd0 : depth + 0 + 1 = depth + 1 := by omega
          rw [hd0, submittedAt_append, submittedAt_append, hA, hB]
          simp only [submittedAt, List.filterMap_cons]
          rw [← submittedAt, submittedAt_submitEvs_self]
          simpa using hpend
  | succ k ihk =>
    cases fuel with
    | zero => omega
    | succ f =>
      have h1 := runTasks_isSome fetch depth pending s
      cases hrt : Spider.runTasks fetch depth pending s with
      | none => rw [hrt] at h1; exact absurd h1 (by simp)
      | some p =>
        obtain ⟨s1, evA⟩ := p
        have h2 := spiderLoop_isSome fetch f (depth + 1) s1.urls { s1 with urls := [] }
        cases hloop : Spider.spiderLoop fetch f (depth + 1) s1.urls { s1 with urls := [] } with
        | none => rw [hloop] at h2; exact absurd h2 (by simp)
        | some p2 =>
          obtain ⟨s3, evB⟩ := p2
          simp only [Spider.spiderLoop, hrt, hloop] at h
          obtain ⟨rfl, rfl⟩ : s3 = s2 ∧
              evA ++ (Ev.levelStart (depth + 1) :: Spider.submitEvs (depth + 1) s1.urls) ++ evB
                = evs := by
            constructor <;> [exact congrArg Prod.fst (Option.some.inj h);
              exact congrArg Prod.snd (Option.some.inj h)]
          simp only [levelsFrom, hrt] at hl
          have ihr := ihk f (depth + 1) s1.urls { s1 with urls := [] } evB hloop (by omega) hl
          have hL : depth + (k + 1) + 1 = depth + 1 + k + 1 := by omega
          have hA : submittedAt (depth + 1 + k + 1) evA = [] :=
            submittedAt_eq_nil _ _ (fun v =>
              runTasks_no_submit fetch depth pending s s1 evA hrt (depth + 1 + k + 1) v)
          have hne : depth + 1 ≠ depth + 1 + k + 1 := by omega
          rw [hL, submittedAt_append, submittedAt_append, hA, ihr]
          simp only [submittedAt, List.filterMap_cons]
          rw [← submittedAt, submittedAt_submitEvs_ne _ _ _ hne]
          simp

/-! ## Per-link effect of processing one page -/

theorem processPage_onLink_parent {α : Type} [DecidableEq α] (fetch : α → FetchResult α)
    (url : α) (s s2 : SpiderResults α) (evs : List (Ev α))
    (h : Spider.processPage fetch url s = some (s2, evs)) :
    ∀ par l el, Ev.onLink par l el ∈ evs → par = url := by
  cases hf : fetch url with
  | err e =>
    rw [processPage_err fetch url s e hf] at h
    obtain rfl : [Ev.fetchStart url] = evs := congrArg Prod.snd (Option.some.inj h)
    intro par l el hb
    simp at hb
  | ok r =>
    by_cases hh : ishtml r
    · cases hdoc : r.doc with
      | none =>
        rw [processPage_parse_fail fetch url s r hf hh hdoc] at h
        obtain rfl : [Ev.fetchStart url, Ev.onResponse url] = evs :=
          congrArg Prod.snd (Option.some.inj h)
        intro par l el hb
        simp at hb
      | some occs =>
        rw [processPage_html fetch url s r occs hf hh hdoc] at h
        cases hrec : Spider.processLinks url occs (Spider.get fetch url s).1 with
        | none => rw [hrec] at h; exact absurd h (by simp)
        | some p2 =>
          obtain ⟨s3, evs3⟩ := p2
          rw [hrec] at h
          obtain rfl : [Ev.fetchStart url, Ev.onResponse url, Ev.onHtml url] ++ evs3 = evs :=
            congrArg Prod.snd (Option.some.inj h)
          have hcl := processLinks_evs url occs _ _ evs3 hrec
          intro par l el hb
          rcases List.mem_append.mp hb with hb | hb
          · simp at hb
          · rcases hcl _ hb with ⟨l2, heq⟩ | ⟨l2, el2, heq⟩
            · cases heq
            · cases heq
              rfl
    · rw [processPage_not_html fetch url s r hf (by simpa using hh)] at h
      obtain rfl : [Ev.fetchStart url, Ev.onResponse url] = evs :=
        congrArg Prod.snd (Option.some.inj h)
      intro par l el hb
      simp at hb

theorem countLinkEv_other {α : Type} [DecidableEq α] (fetch : α → FetchResult α)
    (url p t : α) (s s2 : SpiderResults α) (evs : List (Ev α))
    (h : Spider.processPage fetch url s = some (s2, evs)) (hne : p ≠ url) :
    countLinkEv p t evs = 0 := by
  apply filter_length_zero
  intro e he
  cases e with
  | onLink par l el =>
    have := processPage_onLink_parent fetch url s s2 evs h par l el he
    subst this
    have hne2 : ¬par = p := fun hc => hne hc.symm
    simp [isLinkEv, hne2]
  | levelStart d => rfl
  | submit d u => rfl
  | fetchStart u => rfl
  | procDone d u => rfl
  | onResponse u => rfl
  | onHtml u => rfl
  | appendE p2 l b => rfl

theorem get_urls {α : Type} [DecidableEq α] (fetch : α → FetchResult α) (url : α)
    (s : SpiderResults α) : (Spider.get fetch url s).1.urls = s.urls := by
  cases hf : fetch url with
  | ok r => rw [get_ok fetch url s r hf]
  | err e => rw [get_err fetch url s e hf]

theorem get_graph_counts {α : Type} [DecidableEq α] (fetch : α → FetchResult α) (url : α)
    (s : SpiderResults α) (v t : α) :
    ((lookupA (Spider.get fetch url s).1.graph v).getD []).count t
      = ((lookupA s.graph v).getD []).count t := by
  cases hf : fetch url with
  | err e => rw [get_err fetch url s e hf]
  | ok r =>
    rw [get_ok fetch url s r hf]
    by_cases hm : memA s.graph url
    · simp [hm]
    · simp only [hm, Bool.false_eq_true, if_false]
      have hl : lookupA s.graph url = none := by
        rw [memA] at hm
        cases hlk : lookupA s.graph url with
        | none => rfl
        | some w => rw [hlk] at hm; simp at hm
      cases hlv : lookupA s.graph v with
      | some adj =>
        rw [lookupA_append_some hlv]
      | none =>
        rw [lookupA_append_none [(url, [])] hlv]
        by_cases hvu : v = url
        · subst hvu
          simp [lookupA]
        · simp [lookupA, hvu]

theorem get_graph_other {α : Type} [DecidableEq α] (fetch : α → FetchResult α) (url : α)
    (s : SpiderResults α) (v : α) (hne : v ≠ url) :
    lookupA (Spider.get fetch url s).1.graph v = lookupA s.graph v := by
  cases hf : fetch url with
  | err e => rw [get_err fetch url s e hf]
  | ok r =>
    rw [get_ok fetch url s r hf]
    by_cases hm : memA s.graph url
    · simp [hm]
    · simp only [hm, Bool.false_eq_true, if_false]
      cases hlv : lookupA s.graph v with
      | some adj => rw [lookupA_append_some hlv]
      | none =>
        rw [lookupA_append_none [(url, [])] hlv]
        simp [lookupA, hne]

theorem get_visited_memA {α : Type} [DecidableEq α] (fetch : α → FetchResult α) (url : α)
    (s : SpiderResults α) (v : α) :
    memA (Spider.get fetch url s).1.visited v = (decide (v = url) || memA s.visited v) := by
  cases hf : fetch url with
  | ok r => rw [get_ok fetch url s r hf]; exact memA_setA s.visited url v _
  | err e => rw [get_err fetch url s e hf]; exact memA_setA s.visited url v _

theorem lookupA_eq_none_of_memA {α β : Type} [DecidableEq α] {m : List (α × β)} {k : α}
    (h : memA m k = false) : lookupA m k = none := by
  rw [memA] at h
  cases hlk : lookupA m k with
  | none => rfl
  | some v => rw [hlk] at h; simp at h

theorem countLinkEv_append {α : Type} [DecidableEq α] (p t : α) (l1 l2 : List (Ev α)) :
    countLinkEv p t (l1 ++ l2) = countLinkEv p t l1 + countLinkEv p t l2 := by
  simp [countLinkEv, List.filter_append]

theorem processPage_fresh_link {α : Type} [DecidableEq α] (fetch : α → FetchResult α)
    (u t : α) (s s2 : SpiderResults α) (evs : List (Ev α)) (r : Response α)
    (occs : List (LinkOcc α))
    (hf : fetch u = .ok r) (hh : ishtml r = true) (hdoc : r.doc = some occs)
    (hocc : ∃ occ, occ ∈ occs ∧ occ.attr = "href" ∧ occ.link = t)
    (htu : t ≠ u) (hturls : t ∉ s.urls) (htv : memA s.visited t = false)
    (hgu : memA s.graph u = false)
    (hp : Spider.processPage fetch u s = some (s2, evs)) :
    s2.urls.count t = 1 ∧ ((lookupA s2.graph u).getD []).count t = 1 ∧
    countLinkEv u t evs = 1 := by
  rw [processPage_html fetch u s r occs hf hh hdoc] at hp
  cases hrec : Spider.processLinks u occs (Spider.get fetch u s).1 with
  | none =>
    have h1 := processLinks_isSome u occs (Spider.get fetch u s).1
      (get_ok_memA fetch u s r hf)
    rw [hrec] at h1
    exact absurd h1 (by simp)
  | some p =>
    obtain ⟨s3, evs3⟩ := p
    rw [hrec] at hp
    obtain ⟨rfl, rfl⟩ : s3 = s2 ∧
        [Ev.fetchStart u, Ev.onResponse u, Ev.onHtml u] ++ evs3 = evs := by
      constructor <;> [exact congrArg Prod.fst (Option.some.inj hp);
        exact congrArg Prod.snd (Option.some.inj hp)]
    have hturls2 : t ∉ (Spider.get fetch u s).1.urls := by
      rw [get_urls]
      exact hturls
    have htv2 : memA (Spider.get fetch u s).1.visited t = false := by
      rw [get_visited_memA]
      simp [htu, htv]
    have hadj : lookupA (Spider.get fetch u s).1.graph u = some [] := by
      rw [get_ok fetch u s r hf]
      simp only [hgu, Bool.false_eq_true, if_false]
      rw [lookupA_append_none [(u, [])] (lookupA_eq_none_of_memA hgu)]
      simp [lookupA]
    obtain ⟨h1, h2, h3⟩ := processLinks_fresh u t occs _ _ evs3 [] hturls2 htv2 hadj
      (by simp) hocc hrec
    refine ⟨?_, ?_, ?_⟩
    · rw [h1]
    · rw [h2]
    · rw [countLinkEv_append, h3]
      simp [countLinkEv, isLinkEv, List.filter]

theorem processPage_queued_link {α : Type} [DecidableEq α] (fetch : α → FetchResult α)
    (u t : α) (s s2 : SpiderResults α) (evs : List (Ev α)) (ht : t ∈ s.urls)
    (hp : Spider.processPage fetch u s = some (s2, evs)) :
    s2.urls.count t = s.urls.count t ∧
    (∀ v, ((lookupA s2.graph v).getD []).count t = ((lookupA s.graph v).getD []).count t) ∧
    countLinkEv u t evs = 0 := by
  cases hf : fetch u with
  | err e =>
    rw [processPage_err fetch u s e hf] at hp
    obtain ⟨rfl, rfl⟩ : (Spider.get fetch u s).1 = s2 ∧ [Ev.fetchStart u] = evs := by
      constructor <;> [exact congrArg Prod.fst (Option.some.inj hp);
        exact congrArg Prod.snd (Option.some.inj hp)]
    exact ⟨by rw [get_urls], fun v => get_graph_counts fetch u s v t, rfl⟩
  | ok r =>
    by_cases hh : ishtml r
    · cases hdoc : r.doc with
      | none =>
        rw [processPage_parse_fail fetch u s r hf hh hdoc] at hp
        obtain ⟨rfl, rfl⟩ : (Spider.get fetch u s).1 = s2 ∧
            [Ev.fetchStart u, Ev.onResponse u] = evs := by
          constructor <;> [exact congrArg Prod.fst (Option.some.inj hp);
            exact congrArg Prod.snd (Option.some.inj hp)]
        exact ⟨by rw [get_urls], fun v => get_graph_counts fetch u s v t, rfl⟩
      | some occs =>
        rw [processPage_html fetch u s r occs hf hh hdoc] at hp
        cases hrec : Spider.processLinks u occs (Spider.get fetch u s).1 with
        | none =>
          have h1 := processLinks_isSome u occs (Spider.get fetch u s).1
            (get_ok_memA fetch u s r hf)
          rw [hrec] at h1
          exact absurd h1 (by simp)
        | some p =>
          obtain ⟨s3, evs3⟩ := p
          rw [hrec] at hp
          obtain ⟨rfl, rfl⟩ : s3 = s2 ∧
              [Ev.fetchStart u, Ev.onResponse u, Ev.onHtml u] ++ evs3 = evs := by
            constructor <;> [exact congrArg Prod.fst (Option.some.inj hp);
              exact congrArg Prod.snd (Option.some.inj hp)]
          have ht2 : t ∈ (Spider.get fetch u s).1.urls := by
            rw [get_urls]
            exact ht
          obtain ⟨h1, h2, h3⟩ := processLinks_queued u t occs _ _ evs3 ht2 hrec
          refine ⟨?_, ?_, ?_⟩
          · rw [h1, get_urls]
          · intro v
            rw [h2 v, get_graph_counts fetch u s v t]
          · rw [countLinkEv_append, h3]
            simp [countLinkEv, isLinkEv, List.filter]
    · rw [processPage_not_html fetch u s r hf (by simpa using hh)] at hp
      obtain ⟨rfl, rfl⟩ : (Spider.get fetch u s).1 = s2 ∧
          [Ev.fetchStart u, Ev.onResponse u] = evs := by
        constructor <;> [exact congrArg Prod.fst (Option.some.inj hp);
          exact congrArg Prod.snd (Option.some.inj hp)]
      exact ⟨by rw [get_urls], fun v => get_graph_counts fetch u s v t, rfl⟩

theorem processPage_graph_other {α : Type} [DecidableEq α] (fetch : α → FetchResult α)
    (url : α) (s s2 : SpiderResults α) (evs : List (Ev α))
    (h : Spider.processPage fetch url s = some (s2, evs)) (v : α) (hne : v ≠ url) :
    lookupA s2.graph v = lookupA s.graph v := by
  cases hf : fetch url with
  | err e =>
    rw [processPage_err fetch url s e hf] at h
    obtain rfl : (Spider.get fetch url s).1 = s2 := congrArg Prod.fst (Option.some.inj h)
    exact get_graph_other fetch url s v hne
  | ok r =>
    by_cases hh : ishtml r
    · cases hdoc : r.doc with
      | none =>
        rw [processPage_parse_fail fetch url s r hf hh hdoc] at h
        obtain rfl : (Spider.get fetch url s).1 = s2 := congrArg Prod.fst (Option.some.inj h)
        exact get_graph_other fetch url s v hne
      | some occs =>
        rw [processPage_html fetch url s r occs hf hh hdoc] at h
        cases hrec : Spider.processLinks url occs (Spider.get fetch url s).1 with
        | none => rw [hrec] at h; exact absurd h (by simp)
        | some p2 =>
          obtain ⟨s3, evs3⟩ := p2
          rw [hrec] at h
          obtain rfl : s3 = s2 := congrArg Prod.fst (Option.some.inj h)
          rw [(processLinks_state url occs _ _ evs3 hrec).2.2.2.2.1 v hne]
          exact get_graph_other fetch url s v hne
    · rw [processPage_not_html fetch url s r hf (by simpa using hh)] at h
      obtain rfl : (Spider.get fetch url s).1 = s2 := congrArg Prod.fst (Option.some.inj h)
      exact get_graph_other fetch url s v hne

theorem levelStarts_map_levelStart {α : Type} (l : List Nat) :
    levelStarts ((l.map Ev.levelStart : List (Ev α))) = l := by
  induction l with
  | nil => rfl
  | cons a l ih => simp [levelStarts, List.filterMap_cons] at ih ⊢; exact ih

/-! ## The claims -/

/-- C4: when a successful fetch of `u` has HTML content type but its body
yields no parse root, the page is treated as having no extracted links:
processing returns normally with only the fetch and response events (no
html callback, no link callback, nothing propagated), `graph[u]` is the
empty adjacency list, and the visit record of `u` stays successful
(`dead = false`). -/
theorem claim_C4 {α : Type} [DecidableEq α] (fetch : α → FetchResult α) (u : α)
    (s : SpiderResults α) (r : Response α) (hf : fetch u = .ok r) (hh : ishtml r = true)
    (hdoc : r.doc = none) (hgu : memA s.graph u = false) :
    Spider.processPage fetch u s =
      some ((Spider.get fetch u s).1, [Ev.fetchStart u, Ev.onResponse u]) ∧
    lookupA (Spider.get fetch u s).1.graph u = some [] ∧
    (lookupA (Spider.get fetch u s).1.visited u).map VisitRecord.dead = some false ∧
    (∀ t, countLinkEv u t [Ev.fetchStart u, Ev.onResponse u] = 0) := by
  refine ⟨processPage_parse_fail fetch u s r hf hh hdoc, ?_, ?_, fun t => rfl⟩
  · rw [get_ok fetch u s r hf]
    simp only [hgu, Bool.false_eq_true, if_false]
    rw [lookupA_append_none [(u, [])] (lookupA_eq_none_of_memA hgu)]
    simp [lookupA]
  · rw [get_ok fetch u s r hf]
    simp only [lookupA_setA_self]
    rfl

/-- C5: every fetch of `u`, successful or raising any error, writes a
visit entry for `u` before returning; a failure is recorded in the entry
(`dead = true` with the error kind in `exc`) and yields no response, a
success is recorded live with the response returned — in both cases the
fetch step returns a value, so no fetch-time exception escapes to the
caller. -/
theorem claim_C5 {α : Type} [DecidableEq α] (fetch : α → FetchResult α) (url : α)
    (s : SpiderResults α) :
    (∃ rec : VisitRecord α, lookupA (Spider.get fetch url s).1.visited url = some rec ∧
       rec.times = timesOf s url + 1) ∧
    (∀ e, fetch url = .err e →
       ∃ rec : VisitRecord α, lookupA (Spider.get fetch url s).1.visited url = some rec ∧
         rec.dead = true ∧ rec.exc = some e ∧ (Spider.get fetch url s).2.1 = none) ∧
    (∀ r, fetch url = .ok r →
       ∃ rec : VisitRecord α, lookupA (Spider.get fetch url s).1.visited url = some rec ∧
         rec.dead = false ∧ rec.exc = none ∧ (Spider.get fetch url s).2.1 = some r) := by
  refine ⟨?_, ?_, ?_⟩
  · obtain ⟨rec, hv, ht⟩ := get_visited fetch url s
    exact ⟨rec, by rw [hv, lookupA_setA_self], ht⟩
  · intro e hf
    rw [get_err fetch url s e hf]
    exact ⟨_, lookupA_setA_self s.visited url _, rfl, rfl, rfl⟩
  · intro r hf
    rw [get_ok fetch url s r hf]
    exact ⟨_, lookupA_setA_self s.visited url _, rfl, rfl, rfl⟩

/-- C9: link enumeration can never hit a missing-key error on
`graph[url]`: after a fetch that returns a response (non-failure), the
fetched URL is a key of `graph`, and consequently page processing — whose
`none` result models exactly a KeyError in the discovery loop — always
returns a value. -/
theorem claim_C9 {α : Type} [DecidableEq α] (fetch : α → FetchResult α) :
    (∀ (url : α) (s : SpiderResults α) (r : Response α), fetch url = .ok r →
       memA (Spider.get fetch url s).1.graph url = true) ∧
    (∀ (url : α) (s : SpiderResults α), (Spider.processPage fetch url s).isSome = true) :=
  ⟨fun url s r hf => get_ok_memA fetch url s r hf,
   fun url s => processPage_isSome fetch url s⟩

/-- C10: a failed fetch of `u` writes a visit record with
`redirected = false`, the redirect URL equal to the requested URL itself,
empty content-type and content-encoding, `dead = true`, and the raised
error kind stored in `exc`. -/
theorem claim_C10 {α : Type} [DecidableEq α] (fetch : α → FetchResult α) (url : α)
    (s : SpiderResults α) (e : ErrKind) (hf : fetch url = .err e) :
    lookupA (Spider.get fetch url s).1.visited url =
      some { redirected := false, redirectUrl := url, contentType := "", contentEnc := "",
             dead := true, exc := some e, times := timesOf s url + 1 } := by
  rw [get_err fetch url s e hf]
  rw [lookupA_setA_self]
  rw [timesNext_eq]

/-- Witness for C4 at a concrete site: the parse-failing html root page. -/
theorem claim_C4_witness :
    Spider.processPage fetchNoParse U.root (Spider.initResults U.root) =
      some ((Spider.get fetchNoParse U.root (Spider.initResults U.root)).1,
        [Ev.fetchStart U.root, Ev.onResponse U.root]) ∧
    lookupA (Spider.get fetchNoParse U.root (Spider.initResults U.root)).1.graph U.root
      = some [] :=
  ⟨(claim_C4 fetchNoParse U.root (Spider.initResults U.root)
      { finalUrl := U.root, contentType := "text/html", contentEnc := "", doc := none }
      rfl rfl rfl rfl).1,
   (claim_C4 fetchNoParse U.root (Spider.initResults U.root)
      { finalUrl := U.root, contentType := "text/html", contentEnc := "", doc := none }
      rfl rfl rfl rfl).2.1⟩

/-- Witness for C5 at a concrete site: a connection-refusing root. -/
theorem claim_C5_witness :
    (Spider.get fetchDead U.root (Spider.initResults U.root)).2.1 = none := by
  obtain ⟨rec, _, _, _, h⟩ :=
    (claim_C5 fetchDead U.root (Spider.initResults U.root)).2.1 ErrKind.connectionError rfl
  exact h

/-- Witness for C9 at a concrete site: the parse-failing html root page. -/
theorem claim_C9_witness :
    memA (Spider.get fetchNoParse U.root (Spider.initResults U.root)).1.graph U.root = true ∧
    (Spider.processPage fetchNoParse U.root (Spider.initResults U.root)).isSome = true :=
  ⟨(claim_C9 fetchNoParse).1 U.root (Spider.initResults U.root)
      { finalUrl := U.root, contentType := "text/html", contentEnc := "", doc := none } rfl,
   (claim_C9 fetchNoParse).2 U.root (Spider.initResults U.root)⟩

/-- Witness for C10 at a concrete site: a connection-refusing root. -/
theorem claim_C10_witness :
    lookupA (Spider.get fetchDead U.root (Spider.initResults U.root)).1.visited U.root =
      some { redirected := false, redirectUrl := U.root, contentType := "", contentEnc := "",
             dead := true, exc := some ErrKind.connectionError, times := 1 } :=
  claim_C10 fetchDead U.root (Spider.initResults U.root) ErrKind.connectionError rfl

/-- C2: at the end of any crawl, each `visited` record's `times` field
equals the number of fetches of that URL started during the crawl, and is
at least 1. -/
theorem claim_C2 {α : Type} [DecidableEq α] (fetch : α → FetchResult α) (root : α)
    (maxDepth : Nat) (s : SpiderResults α) (evs : List (Ev α))
    (h : Spider.spider fetch root maxDepth = some (s, evs))
    (u : α) (rec : VisitRecord α) (h2 : lookupA s.visited u = some rec) :
    rec.times = countFetch u evs ∧ 1 ≤ rec.times := by
  have h1 := spiderLoop_isSome fetch (maxDepth - 1) 1 [root] (Spider.initResults root)
  cases hloop : Spider.spiderLoop fetch (maxDepth - 1) 1 [root] (Spider.initResults root) with
  | none => rw [hloop] at h1; exact absurd h1 (by simp)
  | some p =>
    obtain ⟨s1, evs1⟩ := p
    simp only [Spider.spider, hloop] at h
    obtain ⟨rfl, rfl⟩ : s1 = s ∧ Ev.levelStart 1 :: Ev.submit 1 root :: evs1 = evs := by
      constructor <;> [exact congrArg Prod.fst (Option.some.inj h);
        exact congrArg Prod.snd (Option.some.inj h)]
    obtain ⟨ht, hm, _, _⟩ :=
      spiderLoop_spec fetch (maxDepth - 1) 1 [root] (Spider.initResults root) _ evs1 hloop
    have hcnt : countFetch u (Ev.levelStart 1 :: Ev.submit 1 root :: evs1)
        = countFetch u evs1 := by
      simp [countFetch, List.filter]
    have htu := ht u
    have hmu := hm u
    have htz : timesOf (Spider.initResults root) u = 0 := rfl
    have hmz : memA (Spider.initResults root).visited u = false := rfl
    rw [htz] at htu
    rw [hmz] at hmu
    have h3 : timesOf s1 u = rec.times := by rw [timesOf, h2]
    have h4 : memA s1.visited u = true := by rw [memA, h2]; rfl
    rw [h4] at hmu
    have h5 : 0 < countFetch u evs1 := by
      by_cases hpos : 0 < countFetch u evs1
      · exact hpos
      · rw [Bool.false_or] at hmu
        exact absurd hmu.symm (by simp [hpos])
    constructor
    · rw [hcnt]
      omega
    · omega

/-- C3 (counterexample): a fetch of the seed that raises a connection
error is attempted (the fetch-start event fires and a visit record is
written), yet `graph` gains no key for the seed — refuting the claim that
a fetched URL becomes a `graph` key whether the fetch succeeds or fails. -/
theorem claim_C3_counterexample :
    (Spider.get fetchDead U.root (Spider.initResults U.root)).2.2 = [Ev.fetchStart U.root] ∧
    (lookupA (Spider.get fetchDead U.root
        (Spider.initResults U.root)).1.visited U.root).isSome = true ∧
    memA (Spider.get fetchDead U.root (Spider.initResults U.root)).1.graph U.root = false :=
  ⟨rfl, rfl, rfl⟩

/-- C3 (amended): a successfully fetched URL is a `graph` key by the time
the fetch step returns; a failed fetch leaves `graph` unchanged (no key is
added); and every append to an adjacency list during a crawl is performed
with the graph lock held. -/
theorem claim_C3 {α : Type} [DecidableEq α] (fetch : α → FetchResult α) :
    (∀ (url : α) (s : SpiderResults α) (r : Response α), fetch url = .ok r →
       memA (Spider.get fetch url s).1.graph url = true) ∧
    (∀ (url : α) (s : SpiderResults α) (e : ErrKind), fetch url = .err e →
       (Spider.get fetch url s).1.graph = s.graph) ∧
    (∀ (root : α) (maxDepth : Nat) (s : SpiderResults α) (evs : List (Ev α)),
       Spider.spider fetch root maxDepth = some (s, evs) →
       ∀ p l b, Ev.appendE p l b ∈ evs → b = true) := by
  refine ⟨fun url s r hf => get_ok_memA fetch url s r hf, ?_, ?_⟩
  · intro url s e hf
    rw [get_err fetch url s e hf]
  · intro root maxDepth s evs h p l b hb
    have h1 := spiderLoop_isSome fetch (maxDepth - 1) 1 [root] (Spider.initResults root)
    cases hloop : Spider.spiderLoop fetch (maxDepth - 1) 1 [root] (Spider.initResults root) with
    | none => rw [hloop] at h1; exact absurd h1 (by simp)
    | some pr =>
      obtain ⟨s1, evs1⟩ := pr
      simp only [Spider.spider, hloop] at h
      obtain rfl : Ev.levelStart 1 :: Ev.submit 1 root :: evs1 = evs :=
        congrArg Prod.snd (Option.some.inj h)
      rcases List.mem_cons.mp hb with hb1 | hb1
      · cases hb1
      · rcases List.mem_cons.mp hb1 with hb2 | hb2
        · cases hb2
        · exact (spiderLoop_spec fetch (maxDepth - 1) 1 [root]
            (Spider.initResults root) _ evs1 hloop).2.2.1 p l b hb2

/-- C6: discovery is idempotent per page: when a page `u` is processed and
its document contains at least one (possibly repeated) `href` occurrence
of a target `t` that is fresh (not pending in the frontier, not a visited
key, no self-link, page not yet in `graph`), then `t` is appended to
`graph[u]` exactly once, enqueued into the frontier exactly once, and the
link callback for `(u, t)` fires exactly once. -/
theorem claim_C6 {α : Type} [DecidableEq α] (fetch : α → FetchResult α)
    (u t : α) (s s2 : SpiderResults α) (evs : List (Ev α)) (r : Response α)
    (occs : List (LinkOcc α))
    (hf : fetch u = .ok r) (hh : ishtml r = true) (hdoc : r.doc = some occs)
    (hocc : ∃ occ, occ ∈ occs ∧ occ.attr = "href" ∧ occ.link = t)
    (htu : t ≠ u) (hturls : t ∉ s.urls) (htv : memA s.visited t = false)
    (hgu : memA s.graph u = false)
    (hp : Spider.processPage fetch u s = some (s2, evs)) :
    s2.urls.count t = 1 ∧ ((lookupA s2.graph u).getD []).count t = 1 ∧
    countLinkEv u t evs = 1 :=
  processPage_fresh_link fetch u t s s2 evs r occs hf hh hdoc hocc htu hturls htv hgu hp

/-- C1 (counterexample): on the concrete site where `p1` and `p2` both
link to the fresh URL `x`, the crawl of depth 2 enqueues `x` once, but
records the edge only under `p1`: `graph[p2]` does not contain `x` even
though page `p2` links to it — the pending-frontier check in the
discovery guard suppresses the second edge, refuting the claim that `x`
appears as an adjacency entry under every such parent. -/
theorem claim_C1_counterexample :
    fetchShared U.p2 = .ok { finalUrl := U.p2, contentType := "text/html", contentEnc := "",
                             doc := some [⟨0, "href", U.x, 0⟩] } ∧
    (Spider.spider fetchShared U.root 2).map
        (fun r => (r.1.urls.count U.x,
                   ((lookupA r.1.graph U.p1).getD []).count U.x,
                   ((lookupA r.1.graph U.p2).getD []).count U.x))
      = some (1, 1, 0) :=
  ⟨rfl, by decide⟩

/-- C1 (amended): when two distinct pages `p1` and `p2`, both carrying an
href occurrence of the same fresh URL `x`, are processed in one level (in
this order), `x` is enqueued into the frontier exactly once — by `p1`, the
first parent processed — and recorded in `graph[p1]` only: for `p2` the
pending-frontier check suppresses both the enqueue and the edge, and the
link callback for `(p2, x)` never fires. -/
theorem claim_C1 {α : Type} [DecidableEq α] (fetch : α → FetchResult α) (d : Nat)
    (p1 p2 x : α) (s s2 : SpiderResults α) (evs : List (Ev α))
    (r1 r2 : Response α) (occs1 occs2 : List (LinkOcc α))
    (h12 : p1 ≠ p2) (hx1 : x ≠ p1) (hx2 : x ≠ p2)
    (hf1 : fetch p1 = .ok r1) (hh1 : ishtml r1 = true) (hd1 : r1.doc = some occs1)
    (ho1 : ∃ occ, occ ∈ occs1 ∧ occ.attr = "href" ∧ occ.link = x)
    (hf2 : fetch p2 = .ok r2) (hh2 : ishtml r2 = true) (hd2 : r2.doc = some occs2)
    (ho2 : ∃ occ, occ ∈ occs2 ∧ occ.attr = "href" ∧ occ.link = x)
    (hxu : x ∉ s.urls) (hxv : memA s.visited x = false)
    (hg1 : memA s.graph p1 = false) (hg2 : memA s.graph p2 = false)
    (hrt : Spider.runTasks fetch d [p1, p2] s = some (s2, evs)) :
    s2.urls.count x = 1 ∧
    ((lookupA s2.graph p1).getD []).count x = 1 ∧
    ((lookupA s2.graph p2).getD []).count x = 0 ∧
    countLinkEv p1 x evs = 1 ∧ countLinkEv p2 x evs = 0 := by
  have hps1 := processPage_isSome fetch p1 s
  cases hp1 : Spider.processPage fetch p1 s with
  | none => rw [hp1] at hps1; exact absurd hps1 (by simp)
  | some q1 =>
    obtain ⟨sA, ev1⟩ := q1
    have hps2 := processPage_isSome fetch p2 sA
    cases hp2 : Spider.processPage fetch p2 sA with
    | none => rw [hp2] at hps2; exact absurd hps2 (by simp)
    | some q2 =>
      obtain ⟨sB, ev2⟩ := q2
      simp only [Spider.runTasks, hp1, hp2] at hrt
      obtain ⟨rfl, rfl⟩ : sB = s2 ∧
          (ev1 ++ [Ev.procDone d p1]) ++ ((ev2 ++ [Ev.procDone d p2]) ++ []) = evs := by
        constructor <;> [exact congrArg Prod.fst (Option.some.inj hrt);
          exact congrArg Prod.snd (Option.some.inj hrt)]
      obtain ⟨hA1, hA2, hA3⟩ := processPage_fresh_link fetch p1 x s sA ev1 r1 occs1
        hf1 hh1 hd1 ho1 hx1 hxu hxv hg1 hp1
      have hmem : x ∈ sA.urls := by
        by_contra hc
        rw [List.count_eq_zero.mpr hc] at hA1
        simp at hA1
      obtain ⟨hB1, hB2, hB3⟩ := processPage_queued_link fetch p2 x sA sB ev2 hmem hp2
      have hgp2A : lookupA sA.graph p2 = lookupA s.graph p2 :=
        processPage_graph_other fetch p1 s sA ev1 hp1 p2 (fun hc => h12 hc.symm)
      have hcl1 : countLinkEv p1 x ev2 = 0 :=
        countLinkEv_other fetch p2 p1 x sA sB ev2 hp2 h12
      have hpd1 : countLinkEv p1 x [Ev.procDone d p1] = 0 := rfl
      have hpd2 : countLinkEv p2 x [Ev.procDone d p1] = 0 := rfl
      have hcl2 : countLinkEv p2 x ev1 = 0 :=
        countLinkEv_other fetch p1 p2 x s sA ev1 hp1 (fun hc => h12 hc.symm)
      refine ⟨?_, ?_, ?_, ?_, ?_⟩
      · rw [hB1, hA1]
      · rw [hB2 p1, hA2]
      · rw [hB2 p2, hgp2A, lookupA_eq_none_of_memA hg2]
        rfl
      · rw [List.append_nil, countLinkEv_append, countLinkEv_append, countLinkEv_append,
          hA3, hcl1]
        rfl
      · rw [List.append_nil, countLinkEv_append, countLinkEv_append, countLinkEv_append,
          hcl2, hB3]
        rfl

/-- C7: the level barrier. In any crawl trace, for a level `d` below the
depth limit, every completion of a level-`d` task precedes every
submission of a level-`d + 1` task (the trace splits into a prefix with no
level-`d + 1` submission and a suffix with no level-`d` completion); and
the URLs submitted at level `d + 1` are exactly the frontier accumulated
by the end of level `d`, in FIFO discovery order. -/
theorem claim_C7 {α : Type} [DecidableEq α] (fetch : α → FetchResult α) (root : α)
    (maxDepth : Nat) (s : SpiderResults α) (evs : List (Ev α))
    (h : Spider.spider fetch root maxDepth = some (s, evs))
    (d : Nat) (hd1 : 1 ≤ d) (hd2 : d < maxDepth) :
    (∃ A B, evs = A ++ B ∧ (∀ v, Ev.submit (d + 1) v ∉ A) ∧ (∀ u, Ev.procDone d u ∉ B)) ∧
    (∀ st pend, levels fetch root d = some (st, pend) → submittedAt (d + 1) evs = pend) := by
  have h1 := spiderLoop_isSome fetch (maxDepth - 1) 1 [root] (Spider.initResults root)
  cases hloop : Spider.spiderLoop fetch (maxDepth - 1) 1 [root] (Spider.initResults root) with
  | none => rw [hloop] at h1; exact absurd h1 (by simp)
  | some p =>
    obtain ⟨s1, evs1⟩ := p
    simp only [Spider.spider, hloop] at h
    obtain ⟨rfl, rfl⟩ : s1 = s ∧ Ev.levelStart 1 :: Ev.submit 1 root :: evs1 = evs := by
      constructor <;> [exact congrArg Prod.fst (Option.some.inj h);
        exact congrArg Prod.snd (Option.some.inj h)]
    constructor
    · obtain ⟨A2, B2, hAB, hnA, hnB⟩ :=
        spiderLoop_split fetch (maxDepth - 1) 1 [root] (Spider.initResults root)
          s1 evs1 hloop d hd1
      refine ⟨Ev.levelStart 1 :: Ev.submit 1 root :: A2, B2, ?_, ?_, hnB⟩
      · rw [hAB]
        simp
      · intro v hm
        rcases List.mem_cons.mp hm with hm1 | hm1
        · cases hm1
        · rcases List.mem_cons.mp hm1 with hm2 | hm2
          · have : (1 : Nat) = d + 1 := by cases hm2; rfl
            omega
          · exact hnA v hm2
    · intro st pend hl
      have hk : d - 1 + 1 = d := by omega
      have hl2 : levelsFrom fetch 1 (d - 1 + 1) (Spider.initResults root, [root])
          = some (st, pend) := by
        rw [hk]
        exact hl
      have hsub := spiderLoop_submittedAt fetch (d - 1) (maxDepth - 1) 1 [root]
        (Spider.initResults root) s1 evs1 st pend hloop (by omega) hl2
      have hL : 1 + (d - 1) + 1 = d + 1 := by omega
      rw [hL] at hsub
      have hne : ¬((1 : Nat) = d + 1) := by omega
      simp only [submittedAt, List.filterMap_cons, hne, if_false]
      rw [← submittedAt]
      exact hsub

/-- C8: a crawl whose seed fetch raises a connection error produces
exactly one visit record — the seed, dead, with the connection error as
failure kind and attempt count 1 — an empty graph and frontier, and the
engine still announces every level 1..maxDepth before terminating with
this result. -/
theorem claim_C8 {α : Type} [DecidableEq α] (fetch : α → FetchResult α) (root : α)
    (maxDepth : Nat) (hf : fetch root = .err ErrKind.connectionError) (hmd : 1 ≤ maxDepth) :
    Spider.spider fetch root maxDepth =
      some ({ graph := [], visited := [(root, {
                redirected := false, redirectUrl := root, contentType := "",
                contentEnc := "", dead := true, exc := some ErrKind.connectionError,
                times := 1 })],
              urls := [], glock := 0, root := root },
            Ev.levelStart 1 :: Ev.submit 1 root :: Ev.fetchStart root :: Ev.procDone 1 root ::
              (List.range' 2 (maxDepth - 1)).map Ev.levelStart) ∧
    levelStarts (Ev.levelStart 1 :: Ev.submit 1 root :: Ev.fetchStart root
        :: Ev.procDone 1 root :: ((List.range' 2 (maxDepth - 1)).map Ev.levelStart : List (Ev α)))
      = List.range' 1 maxDepth := by
  refine ⟨spider_dead_root fetch root maxDepth ErrKind.connectionError hf, ?_⟩
  obtain ⟨n, rfl⟩ : ∃ n, maxDepth = n + 1 := ⟨maxDepth - 1, by omega⟩
  simp only [Nat.add_sub_cancel]
  have htail := @levelStarts_map_levelStart α (List.range' 2 n)
  simp only [levelStarts, List.filterMap_cons] at htail ⊢
  rw [htail]
  simp [List.range']

/-- Witness for C1 (amended) at the concrete shared-link site. -/
theorem claim_C1_witness :
    ([U.x] : List U).count U.x = 1 ∧
    ((lookupA [(U.p1, [U.x]), (U.p2, ([] : List U))] U.p1).getD []).count U.x = 1 ∧
    ((lookupA [(U.p1, [U.x]), (U.p2, ([] : List U))] U.p2).getD []).count U.x = 0 ∧
    countLinkEv U.p1 U.x
      [Ev.fetchStart U.p1, Ev.onResponse U.p1, Ev.onHtml U.p1,
       Ev.appendE U.p1 U.x true, Ev.onLink U.p1 U.x 0, Ev.procDone 2 U.p1,
       Ev.fetchStart U.p2, Ev.onResponse U.p2, Ev.onHtml U.p2, Ev.procDone 2 U.p2] = 1 ∧
    countLinkEv U.p2 U.x
      [Ev.fetchStart U.p1, Ev.onResponse U.p1, Ev.onHtml U.p1,
       Ev.appendE U.p1 U.x true, Ev.onLink U.p1 U.x 0, Ev.procDone 2 U.p1,
       Ev.fetchStart U.p2, Ev.onResponse U.p2, Ev.onHtml U.p2, Ev.procDone 2 U.p2] = 0 :=
  claim_C1 fetchShared 2 U.p1 U.p2 U.x (Spider.initResults U.root)
    { graph := [(U.p1, [U.x]), (U.p2, [])],
      visited := [(U.p1, {
                    redirected := false, redirectUrl := U.p1,
                    contentType := "text/html", contentEnc := "", dead := false,
                    exc := none, times := 1 }),
                  (U.p2, {
                    redirected := false, redirectUrl := U.p2,
                    contentType := "text/html", contentEnc := "", dead := false,
                    exc := none, times := 1 })],
      urls := [U.x], glock := 0, root := U.root }
    [Ev.fetchStart U.p1, Ev.onResponse U.p1, Ev.onHtml U.p1,
     Ev.appendE U.p1 U.x true, Ev.onLink U.p1 U.x 0, Ev.procDone 2 U.p1,
     Ev.fetchStart U.p2, Ev.onResponse U.p2, Ev.onHtml U.p2, Ev.procDone 2 U.p2]
    { finalUrl := U.p1, contentType := "text/html", contentEnc := "",
      doc := some [⟨0, "href", U.x, 0⟩] }
    { finalUrl := U.p2, contentType := "text/html", contentEnc := "",
      doc := some [⟨0, "href", U.x, 0⟩] }
    [⟨0, "href", U.x, 0⟩] [⟨0, "href", U.x, 0⟩]
    (by decide) (by decide) (by decide) rfl rfl rfl
    ⟨⟨0, "href", U.x, 0⟩, by decide, rfl, rfl⟩ rfl rfl rfl
    ⟨⟨0, "href", U.x, 0⟩, by decide, rfl, rfl⟩ (by decide) rfl rfl rfl rfl

/-- Witness for C2 at a concrete crawl with a connection-refusing seed. -/
theorem claim_C2_witness :
    VisitRecord.times {
        redirected := false, redirectUrl := U.root, contentType := "",
        contentEnc := "", dead := true, exc := some ErrKind.connectionError, times := 1 }
      = countFetch U.root [Ev.levelStart 1, Ev.submit 1 U.root, Ev.fetchStart U.root,
          Ev.procDone 1 U.root] ∧
    1 ≤ VisitRecord.times {
        redirected := false, redirectUrl := U.root, contentType := "",
        contentEnc := "", dead := true, exc := some ErrKind.connectionError, times := 1 } :=
  claim_C2 fetchDead U.root 1
    { graph := [], visited := [(U.root, {
        redirected := false, redirectUrl := U.root,
        contentType := "", contentEnc := "", dead := true,
        exc := some ErrKind.connectionError, times := 1 })],
      urls := [], glock := 0, root := U.root }
    [Ev.levelStart 1, Ev.submit 1 U.root, Ev.fetchStart U.root, Ev.procDone 1 U.root]
    rfl U.root
    { redirected := false, redirectUrl := U.root, contentType := "", contentEnc := "",
      dead := true, exc := some ErrKind.connectionError, times := 1 }
    rfl

/-- Witness for C3 (amended) at concrete sites: live fetch adds the key,
dead fetch leaves the graph unchanged, and a concrete crawl append event
carries a held lock. -/
theorem claim_C3_witness :
    memA (Spider.get fetchNoParse U.root (Spider.initResults U.root)).1.graph U.root = true ∧
    (Spider.get fetchDead U.root (Spider.initResults U.root)).1.graph
      = (Spider.initResults U.root).graph ∧
    true = true :=
  ⟨(claim_C3 fetchNoParse).1 U.root (Spider.initResults U.root)
     { finalUrl := U.root, contentType := "text/html", contentEnc := "", doc := none } rfl,
   (claim_C3 fetchDead).2.1 U.root (Spider.initResults U.root) ErrKind.connectionError rfl,
   (claim_C3 fetchShared).2.2 U.root 2
     { graph := [(U.root, [U.p1, U.p2]), (U.p1, [U.x]), (U.p2, [])],
       visited := [(U.root, {
                     redirected := false, redirectUrl := U.root,
                     contentType := "text/html", contentEnc := "", dead := false,
                     exc := none, times := 1 }),
                   (U.p1, {
                     redirected := false, redirectUrl := U.p1,
                     contentType := "text/html", contentEnc := "", dead := false,
                     exc := none, times := 1 }),
                   (U.p2, {
                     redirected := false, redirectUrl := U.p2,
                     contentType := "text/html", contentEnc := "", dead := false,
                     exc := none, times := 1 })],
       urls := [U.x], glock := 0, root := U.root }
     [Ev.levelStart 1, Ev.submit 1 U.root, Ev.fetchStart U.root, Ev.onResponse U.root,
      Ev.onHtml U.root, Ev.appendE U.root U.p1 true, Ev.onLink U.root U.p1 0,
      Ev.appendE U.root U.p2 true, Ev.onLink U.root U.p2 1, Ev.procDone 1 U.root,
      Ev.levelStart 2, Ev.submit 2 U.p1, Ev.submit 2 U.p2, Ev.fetchStart U.p1,
      Ev.onResponse U.p1, Ev.onHtml U.p1, Ev.appendE U.p1 U.x true, Ev.onLink U.p1 U.x 0,
      Ev.procDone 2 U.p1, Ev.fetchStart U.p2, Ev.onResponse U.p2, Ev.onHtml U.p2,
      Ev.procDone 2 U.p2]
     rfl U.root U.p1 true (by decide)⟩

/-- Witness for C6 at the concrete duplicate-link site (links A, B, A). -/
theorem claim_C6_witness :
    ([U.a, U.b] : List U).count U.a = 1 ∧
    ((lookupA [(U.root, [U.a, U.b])] U.root).getD []).count U.a = 1 ∧
    countLinkEv U.root U.a
      [Ev.fetchStart U.root, Ev.onResponse U.root, Ev.onHtml U.root,
       Ev.appendE U.root U.a true, Ev.onLink U.root U.a 0,
       Ev.appendE U.root U.b true, Ev.onLink U.root U.b 1] = 1 :=
  claim_C6 fetchDup U.root U.a (Spider.initResults U.root)
    { graph := [(U.root, [U.a, U.b])],
      visited := [(U.root, {
                    redirected := false, redirectUrl := U.root,
                    contentType := "text/html", contentEnc := "", dead := false,
                    exc := none, times := 1 })],
      urls := [U.a, U.b], glock := 0, root := U.root }
    [Ev.fetchStart U.root, Ev.onResponse U.root, Ev.onHtml U.root,
     Ev.appendE U.root U.a true, Ev.onLink U.root U.a 0,
     Ev.appendE U.root U.b true, Ev.onLink U.root U.b 1]
    { finalUrl := U.root, contentType := "text/html", contentEnc := "",
      doc := some [⟨0, "href", U.a, 0⟩, ⟨1, "href", U.b, 1⟩, ⟨2, "href", U.a, 2⟩] }
    [⟨0, "href", U.a, 0⟩, ⟨1, "href", U.b, 1⟩, ⟨2, "href", U.a, 2⟩]
    rfl rfl rfl ⟨⟨0, "href", U.a, 0⟩, by decide, rfl, rfl⟩
    (by decide) (by decide) rfl rfl rfl

/-- Witness for C7 at the concrete shared-link site, level 1 to 2: the
URLs submitted at level 2 are exactly the frontier at the end of level 1. -/
theorem claim_C7_witness :
    submittedAt 2
      [Ev.levelStart 1, Ev.submit 1 U.root, Ev.fetchStart U.root, Ev.onResponse U.root,
       Ev.onHtml U.root, Ev.appendE U.root U.p1 true, Ev.onLink U.root U.p1 0,
       Ev.appendE U.root U.p2 true, Ev.onLink U.root U.p2 1, Ev.procDone 1 U.root,
       Ev.levelStart 2, Ev.submit 2 U.p1, Ev.submit 2 U.p2, Ev.fetchStart U.p1,
       Ev.onResponse U.p1, Ev.onHtml U.p1, Ev.appendE U.p1 U.x true, Ev.onLink U.p1 U.x 0,
       Ev.procDone 2 U.p1, Ev.fetchStart U.p2, Ev.onResponse U.p2, Ev.onHtml U.p2,
       Ev.procDone 2 U.p2] = [U.p1, U.p2] :=
  (claim_C7 fetchShared U.root 2
    { graph := [(U.root, [U.p1, U.p2]), (U.p1, [U.x]), (U.p2, [])],
      visited := [(U.root, {
                    redirected := false, redirectUrl := U.root,
                    contentType := "text/html", contentEnc := "", dead := false,
                    exc := none, times := 1 }),
                  (U.p1, {
                    redirected := false, redirectUrl := U.p1,
                    contentType := "text/html", contentEnc := "", dead := false,
                    exc := none, times := 1 }),
                  (U.p2, {
                    redirected := false, redirectUrl := U.p2,
                    contentType := "text/html", contentEnc := "", dead := false,
                    exc := none, times := 1 })],
      urls := [U.x], glock := 0, root := U.root }
    [Ev.levelStart 1, Ev.submit 1 U.root, Ev.fetchStart U.root, Ev.onResponse U.root,
     Ev.onHtml U.root, Ev.appendE U.root U.p1 true, Ev.onLink U.root U.p1 0,
     Ev.appendE U.root U.p2 true, Ev.onLink U.root U.p2 1, Ev.procDone 1 U.root,
     Ev.levelStart 2, Ev.submit 2 U.p1, Ev.submit 2 U.p2, Ev.fetchStart U.p1,
     Ev.onResponse U.p1, Ev.onHtml U.p1, Ev.appendE U.p1 U.x true, Ev.onLink U.p1 U.x 0,
     Ev.procDone 2 U.p1, Ev.fetchStart U.p2, Ev.onResponse U.p2, Ev.onHtml U.p2,
     Ev.procDone 2 U.p2]
    (by decide) 1 (by omega) (by omega)).2
    { graph := [(U.root, [U.p1, U.p2])],
      visited := [(U.root, {
                    redirected := false, redirectUrl := U.root,
                    contentType := "text/html", contentEnc := "", dead := false,
                    exc := none, times := 1 })],
      urls := [], glock := 0, root := U.root }
    [U.p1, U.p2] rfl

/-- Witness for C8 at a concrete crawl: dead seed, depth 3. -/
theorem claim_C8_witness :
    Spider.spider fetchDead U.root 3 =
      some ({ graph := [], visited := [(U.root, {
                redirected := false, redirectUrl := U.root, contentType := "",
                contentEnc := "", dead := true, exc := some ErrKind.connectionError,
                times := 1 })],
              urls := [], glock := 0, root := U.root },
            Ev.levelStart 1 :: Ev.submit 1 U.root :: Ev.fetchStart U.root
              :: Ev.procDone 1 U.root :: (List.range' 2 (3 - 1)).map Ev.levelStart) ∧
    levelStarts (Ev.levelStart 1 :: Ev.submit 1 U.root :: Ev.fetchStart U.root
        :: Ev.procDone 1 U.root :: ((List.range' 2 (3 - 1)).map Ev.levelStart : List (Ev U)))
      = List.range' 1 3 :=
  claim_C8 fetchDead U.root 3 rfl (by omega)
